import Mathlib

/-!
Verification of the promql-engine physical operator model against its
natural-language specification.  The definitions below are a shallow
embedding of the Go sources:

* `src/unnamed/part_000` — the `executionplan` package: `newOperator`,
  the recursive expression-to-operator builder.
* `src/execution/function/operator.go` — the `function` package:
  `NewFunctionOperator`, `newNoArgsFunctionOperator`,
  `newInstantVectorFunctionOperator`, `functionOperator.Next`,
  `functionOperator.Series` / `loadSeries`, `dropLabel`.

Go machine values are modelled as follows: `float64` becomes `Fl`
(a tagged value that is either NaN or an exact number — none of the
verified claims depend on float rounding, only on value threading,
NaN-as-missing and validity flags); `time.Duration` becomes an `Int`
count of nanoseconds; slices become `List`s; `error` results become
`Except`/`Option`; a Go runtime panic (out-of-range index) is modelled
by an `Option.none` result of the enclosing operation.
-/

set_option autoImplicit false

namespace PromqlEngine

/-- Model of a Go `float64` sample value: either NaN (`math.NaN()`), or an
exact numeric value.  Claims in this development never depend on floating
point rounding, only on which value is threaded where. -/
inductive Fl where
  | nan : Fl
  | val : Int → Fl
deriving DecidableEq, Repr, Inhabited

/-- Model of the `error` values produced by this package: the
`parse.UnknownFunctionError` and `parse.ErrNotImplemented` build-time
errors, and opaque child-operator errors. -/
inductive Err where
  | unknownFunction : String → Err
  | notImplemented : String → Err
  | msg : String → Err
deriving DecidableEq, Repr

/-- Model of `labels.Labels`: an ordered list of name/value pairs
(`labels.Label`).  `labels.Labels.Range` iterates the pairs in order. -/
abbrev Labels := List (String × String)

/-- The reserved metric-name label `labels.MetricName` (`__name__`). -/
def metricNameLabel : String := "__name__"

/-- Model of `dropLabel` (operator.go): removes the label with the given
name from `l`.  The Go function returns early when `l` is empty, otherwise
it rebuilds the label set from every pair whose name differs, preserving
order (`labels.Labels.Range` visits pairs in order and the scratch builder
keeps insertion order).  The dropped pair itself is also returned by the
Go function but no caller in this file uses it, so only the remaining
label set is modelled. -/
def dropLabel (l : Labels) (name : String) : Labels :=
  if l.isEmpty then l else l.filter (fun p => p.1 ≠ name)

/-- Model of `DropMetricName` (operator.go): drop the `__name__` label. -/
def DropMetricName (l : Labels) : Labels :=
  dropLabel l metricNameLabel

end PromqlEngine

namespace ExecutionPlan

/-!
Shallow embedding of the `executionplan` package (`src/unnamed/part_000`).
The parser AST (`parser.Expr`) is an external collaborator; it is modelled
as a closed sum of exactly the shapes the builder inspects: aggregations,
instant-vector selectors, function calls (whose arguments are only
inspected for being a range/matrix selector), and a catch-all for every
other node kind.  `mint`, `maxt` and `stepMs` model the `time.Time` /
`time.Duration` parameters as milliseconds.
-/

/-- A function-call argument as the builder sees it: either a matrix
(range-vector) selector — carrying its range and the label matchers of its
underlying vector selector — or any other expression, kept only as its
textual form.  Label matchers are opaque to the builder and modelled as
strings. -/
inductive BArg where
  | matrixSelector : List String → Int → BArg
  | otherArg : String → BArg
deriving DecidableEq, Repr

/-- The expression shapes `newOperator` dispatches on: `*parser.AggregateExpr`
(operator name, `Without` flag, grouping labels, inner expression),
`*parser.VectorSelector` (label matchers), `*parser.Call` (function name and
arguments), and the default case for every other node kind (kept as its
textual form). -/
inductive BExpr where
  | aggregate : String → Bool → List String → BExpr → BExpr
  | vectorSelector : List String → BExpr
  | call : String → List BArg → BExpr
  | other : String → BExpr
deriving DecidableEq, Repr

/-- Textual form of a call argument, modelling `parser.Expr.String()` for
argument positions.  The exact rendering is irrelevant to every claim; it
only needs to be a function of the argument. -/
def argText : BArg → String
  | .matrixSelector ms r => String.intercalate "," ms ++ "[" ++ toString r ++ "]"
  | .otherArg t => t

/-- Textual form of an expression, modelling `parser.Expr.String()` as used
by `fmt.Errorf("unsupported expression %s", e)`. -/
def exprText : BExpr → String
  | .aggregate op w g inner =>
      op ++ (if w then " without (" else " by (") ++ String.intercalate "," g
        ++ ") (" ++ exprText inner ++ ")"
  | .vectorSelector ms => String.intercalate "," ms
  | .call f args => f ++ "(" ++ String.intercalate "," (args.map argText) ++ ")"
  | .other t => t

/-- Modelled from the spec: the operators the builder instantiates —
`NewVectorSelector`, `NewMatrixSelector`, `NewAggregate` and the
`concurrent` decorator — live in files of this repository that are not
part of the visible sources, so they are modelled as pure constructors
that record exactly the arguments the visible call sites pass them
(spec §4.1: the builder is a pure tree transform whose only side effect
is constructing objects). -/
inductive PlanOp where
  | vectorSelector : List String → Int → Int → Int → PlanOp
  | matrixSelector : List String → Int → Int → Int → Int → PlanOp
  | aggregate : PlanOp → String → Bool → List String → PlanOp
  | concurrent : PlanOp → PlanOp
deriving DecidableEq, Repr

/-- Model of `newOperator` (part_000): recursive dispatch over the
expression shape.  The `Option` layer models Go runtime panics: a
`*parser.Call` with an empty argument list makes the Go code evaluate
`e.Args[0]`, which panics with an index-out-of-range error instead of
returning; that execution is modelled as `none`.  All returned errors are
`some (.error …)`.  `NewAggregate`'s own error return (rejection of an
unknown aggregation operator, in code outside the visible sources) is not
modelled; the visible call site forwards its arguments unchanged, which is
all the claims below inspect. -/
def newOperator (mint maxt stepMs : Int) : BExpr → Option (Except String PlanOp)
  | .aggregate op w g inner =>
      match newOperator mint maxt stepMs inner with
      | none => none
      | some (.error e) => some (.error e)
      | some (.ok next) =>
          some (.ok (.concurrent (.aggregate next op (!w) g)))
  | .vectorSelector ms =>
      some (.ok (.concurrent (.vectorSelector ms mint maxt stepMs)))
  | .call f args =>
      match args.head? with
      | none => none
      | some (.matrixSelector ms r) =>
          some (.ok (.concurrent (.matrixSelector ms mint maxt stepMs r)))
      | some (.otherArg _) =>
          some (.error ("unsupported expression " ++ exprText (.call f args)))
  | .other t =>
      some (.error ("unsupported expression " ++ exprText (.other t)))

end ExecutionPlan

namespace PromqlEngine

/-- Model of Go slice element assignment `l[i] = x`.  It is only ever used
with `i < l.length`; a Go program indexing out of range would panic, and
every theorem below that uses `setIdx` carries bounds that keep it inside
the list. -/
def setIdx {α : Type} (l : List α) (i : Nat) (x : α) : List α :=
  l.take i ++ x :: l.drop (i + 1)

/-- Modelled from the spec: stable in-place removal of element `i` from a
slice, the primitive behind `model.StepVector.RemoveSample` and
`RemoveHistogram` (the `execution/model` package is not among the visible
sources; spec §4.5/§9 describe the operation as an in-place O(n)
stable compaction of the same buffer). -/
def removeIdx {α : Type} (l : List α) (i : Nat) : List α :=
  l.take i ++ l.drop (i + 1)

/-- Modelled from the spec: `model.StepVector` (§3) — the batch unit for
one step: a timestamp, scalar samples and histogram samples, each sample
carried as a parallel pair of ID and payload lists.  Histogram payloads
are opaque to the function operator (it only forwards them to the function
body), so they are modelled as `Nat` handles. -/
structure StepVector where
  T : Int
  SampleIDs : List Nat
  Samples : List Fl
  HistogramIDs : List Nat
  Histograms : List Nat
deriving DecidableEq, Repr

/-- The zero `StepVector`, used as the out-of-range default of list
lookups that would panic in Go. -/
def emptySV : StepVector := ⟨0, [], [], [], []⟩

instance : Inhabited StepVector := ⟨emptySV⟩

/-- Modelled from the spec: `model.StepVector.RemoveSample(i)` — stable
in-place removal of scalar sample `i` (ID and value). -/
def StepVector.RemoveSample (v : StepVector) (i : Nat) : StepVector :=
  { v with SampleIDs := removeIdx v.SampleIDs i, Samples := removeIdx v.Samples i }

/-- Modelled from the spec: `model.StepVector.RemoveHistogram(i)` — stable
in-place removal of histogram sample `i` (ID and payload). -/
def StepVector.RemoveHistogram (v : StepVector) (i : Nat) : StepVector :=
  { v with HistogramIDs := removeIdx v.HistogramIDs i,
           Histograms := removeIdx v.Histograms i }

/-- Modelled from the spec: `model.StepVector.AppendSample(pool, id, val)`
— append a scalar sample to the step vector.  The pool argument only
affects buffer reuse, not the resulting contents, and is not modelled. -/
def StepVector.AppendSample (v : StepVector) (id : Nat) (val : Fl) : StepVector :=
  { v with SampleIDs := v.SampleIDs ++ [id], Samples := v.Samples ++ [val] }

/-- Model of the Go `functionCall` signature: a function body receives a
scalar sample value, an optional histogram, and the per-step scalar
arguments, and returns a result plus a validity flag — modelled as
`Option Fl` (`some` = valid). The individual function bodies are external
to this spec (§1); every theorem below is parametric in the call. -/
def FunctionCall : Type := Fl → Option Nat → List Fl → Option Fl

/-- Model of the Go `noArgFunctionCall` signature: a step timestamp in,
a value out. -/
def NoArgCall : Type := Int → Fl

/-- Model of a child `model.VectorOperator` as the function operator
observes it through the pull protocol (spec §4.2): a `Series` result, and
a stream of `Next` results indexed by how many times the child has been
pulled so far. -/
structure ChildOp where
  seriesRes : Except Err (List Labels)
  nextRes : Nat → Except Err (List StepVector)

/-- Default child used for out-of-range child lookups (a Go program would
panic there; no theorem below reaches it). -/
def defaultChild : ChildOp := ⟨.ok [], fun _ => .ok []⟩

instance : Inhabited ChildOp := ⟨defaultChild⟩

/-- Model of `query.Options`: start/end as Unix milliseconds and the step
as a `time.Duration`, i.e. an integer count of nanoseconds. -/
structure QOptions where
  startMs : Int
  endMs : Int
  stepNanos : Int
deriving DecidableEq, Repr

/-- Model of `time.Duration.Milliseconds()`: integer division by 10^6,
truncating toward zero as Go division does. -/
def goMilliseconds (nanos : Int) : Int := Int.tdiv nanos 1000000

/-- Model of `parser.ValueType` for function arguments. -/
inductive VType where
  | vector | scalar | matrix | str
deriving DecidableEq, Repr

/-- Model of the `*parser.Call` data the function-operator constructors
inspect: the function name and the value types of the arguments. -/
structure FuncExpr where
  name : String
  argTypes : List VType
deriving DecidableEq, Repr

end PromqlEngine

namespace PromqlEngine

/-- Model of the `functionOperator` struct (operator.go).  `onceDone`
models the fired/unfired state of the `sync.Once`; `series` is the cached
series array (Go zero value: `nil`, modelled as `[]`); `pulls` is
bookkeeping (indexed by child position) for how many times each child in
`nextOps` has had `Next` called on it, so that theorems can speak about
pull counts; `scalarPoints` is the per-step scalar-argument buffer. -/
structure FunctionOperator where
  funcName : String
  call : FunctionCall
  nextOps : List ChildOp
  vectorIndex : Nat
  onceDone : Bool
  series : List Labels
  pulls : Nat → Nat
  scalarPoints : List (List Fl)

/-- Model of `functionOperator.loadSeries`: under the `sync.Once`, either
install the fixed single empty series for the `vector` function, or pull
the vector child's `Series` and drop the metric name from every label set.
The once fires even when the child fails, and the error is only held in a
local variable of the Go function — so a later call finds the once fired,
returns no error, and leaves `series` at its zero value. -/
def loadSeries (o : FunctionOperator) : FunctionOperator × Option Err :=
  if o.onceDone then (o, none)
  else if o.funcName = "vector" then
    ({ o with onceDone := true, series := [[]] }, none)
  else
    match (o.nextOps.getD o.vectorIndex defaultChild).seriesRes with
    | .error e => ({ o with onceDone := true }, some e)
    | .ok s =>
        ({ o with onceDone := true, series := s.map DropMetricName }, none)

/-- Model of `functionOperator.Series`: run `loadSeries`, then return the
cached array. -/
def FunctionOperator.Series (o : FunctionOperator) :
    FunctionOperator × Except Err (List Labels) :=
  match loadSeries o with
  | (o1, some e) => (o1, .error e)
  | (o1, none) => (o1, .ok o1.series)

/-- Model of the per-step scalar extraction inside `Next`'s scalar-argument
loop: `val := math.NaN(); if len(scalarVectors) > 0 &&
len(scalarVectors[batchIndex].Samples) > 0 { val = … Samples[0] }`.
Indexing `scalarVectors[batchIndex]` with `batchIndex ≥ len(scalarVectors)`
would panic in Go; the theorems below only evaluate this under the
protocol alignment hypothesis that rules that case out. -/
def scalarVal (svs : List StepVector) (batchIndex : Nat) : Fl :=
  if svs.length > 0 ∧ (svs.getD batchIndex emptySV).Samples.length > 0 then
    (svs.getD batchIndex emptySV).Samples.headD .nan
  else .nan

/-- Pull child `i` once: record the bumped pull count and the child's
`Next` result for the current pull index. -/
def pullChild (ops : List ChildOp) (pulls : Nat → Nat) (i : Nat) :
    (Nat → Nat) × Except Err (List StepVector) :=
  (fun k => if k = i then pulls k + 1 else pulls k,
   (ops.getD i defaultChild).nextRes (pulls i))

/-- Model of the inner write loop `for batchIndex := range vectors {
o.scalarPoints[batchIndex][scalarIndex] = val }`: set column `sIdx` of the
first `n` rows of the buffer to the extracted per-step scalar value.  The
counter `b` is the index of the first row of the remaining buffer. -/
def writeColAux (sIdx : Nat) (svs : List StepVector) (n : Nat) :
    Nat → List (List Fl) → List (List Fl)
  | _, [] => []
  | b, row :: rest =>
      (if b < n then setIdx row sIdx (scalarVal svs b) else row)
        :: writeColAux sIdx svs n (b + 1) rest

/-- Write one scalar argument's extracted values into column `sIdx` of the
scalar-points buffer, for the `n` steps of the current batch. -/
def writeCol (sIdx : Nat) (svs : List StepVector) (n : Nat)
    (points : List (List Fl)) : List (List Fl) :=
  writeColAux sIdx svs n 0 points

/-- Model of the scalar-argument loop of `functionOperator.Next`
(operator.go lines 177–198): walk the children from index `i` upward,
skipping the vector child; pull each one once; on error stop immediately
(no further siblings are pulled); otherwise write the extracted per-step
values into scalar-points column `sIdx` and continue with the next column.
`n` is the number of steps in the current vector batch. -/
def scalarArgsLoop (ops : List ChildOp) (vIdx n : Nat) :
    Nat → Nat → (Nat → Nat) → List (List Fl) →
    (Nat → Nat) × List (List Fl) × Option Err
  | i, sIdx, pulls, points =>
    if _h : i < ops.length then
      if i = vIdx then scalarArgsLoop ops vIdx n (i + 1) sIdx pulls points
      else
        match pullChild ops pulls i with
        | (pulls1, .error e) => (pulls1, points, some e)
        | (pulls1, .ok svs) =>
            scalarArgsLoop ops vIdx n (i + 1) (sIdx + 1) pulls1
              (writeCol sIdx svs n points)
    else (pulls, points, none)
termination_by i => ops.length - i

/-- Model of the scalar-sample loop of `Next` (operator.go lines 199–211):
starting at index `i`, call the function on each scalar sample with a nil
histogram and the step's scalar arguments; a valid result replaces the
sample value in place and the index advances; an invalid result removes
the sample (ID and value) in place and the index stays. -/
def sampleLoop (call : FunctionCall) (row : List Fl) :
    StepVector → Nat → StepVector
  | v, i =>
    if h : i < v.Samples.length then
      match call (v.Samples.get ⟨i, h⟩) none row with
      | some r =>
          sampleLoop call row { v with Samples := setIdx v.Samples i r } (i + 1)
      | none => sampleLoop call row (v.RemoveSample i) i
    else v
termination_by v i => v.Samples.length - i
decreasing_by
  all_goals simp [setIdx, removeIdx, StepVector.RemoveSample]
  all_goals omega

/-- Model of the histogram loop of `Next` (operator.go lines 212–223): the
index is reset to 0 and never incremented, so while histograms remain the
head histogram is passed to the function (with scalar value 0), its sample
ID is read, the histogram is removed unconditionally, and a valid result
is appended as a new scalar sample carrying that ID. -/
def histLoop (call : FunctionCall) (row : List Fl) (v : StepVector) :
    StepVector :=
  if h : 0 < v.Histograms.length then
    match call (.val 0) (some (v.Histograms.get ⟨0, h⟩)) row with
    | some r =>
        histLoop call row
          ((v.RemoveHistogram 0).AppendSample (v.HistogramIDs.getD 0 0) r)
    | none => histLoop call row (v.RemoveHistogram 0)
  else v
termination_by v.Histograms.length
decreasing_by
  all_goals simp [removeIdx, StepVector.RemoveHistogram, StepVector.AppendSample]
  all_goals omega

/-- One step's processing inside `Next`: the scalar-sample loop from index
0, then the histogram loop. -/
def processStep (call : FunctionCall) (row : List Fl) (v : StepVector) :
    StepVector :=
  histLoop call row (sampleLoop call row v 0)

/-- The per-batch loop of `Next`: process step `b` of the batch with row
`b` of the scalar-points buffer, for each step vector in order. -/
def processBatches (call : FunctionCall) (points : List (List Fl)) :
    Nat → List StepVector → List StepVector
  | _, [] => []
  | b, v :: rest =>
      processStep call (points.getD b []) v :: processBatches call points (b + 1) rest

/-- Model of `functionOperator.Next` (operator.go lines 156–227): check
the series cache (`loadSeries`), pull the vector child, return immediately
on an empty batch (`nil, nil` in Go, modelled as `.ok []`), run the
scalar-argument loop, and on success run the sample and histogram loops
over every step of the batch.  Context cancellation is outside this model
(the `select` on `ctx.Done()` at the top is not represented). -/
def FunctionOperator.Next (o : FunctionOperator) :
    FunctionOperator × Except Err (List StepVector) :=
  match loadSeries o with
  | (o1, some e) => (o1, .error e)
  | (o1, none) =>
    match pullChild o1.nextOps o1.pulls o1.vectorIndex with
    | (pulls1, .error e) => ({ o1 with pulls := pulls1 }, .error e)
    | (pulls1, .ok vectors) =>
      if vectors.length = 0 then ({ o1 with pulls := pulls1 }, .ok [])
      else
        match scalarArgsLoop o1.nextOps o1.vectorIndex vectors.length 0 0
            pulls1 o1.scalarPoints with
        | (pulls2, points2, some e) =>
            ({ o1 with pulls := pulls2, scalarPoints := points2 }, .error e)
        | (pulls2, points2, none) =>
            ({ o1 with pulls := pulls2, scalarPoints := points2 },
             .ok (processBatches o1.call points2 0 vectors))

/-- Result of `NewFunctionOperator`, one constructor per specialized
operator variant.  The special variants (`scalar`, `label_join` /
`label_replace`, `absent`, `histogram_quantile`) and the no-argument
variant live in files that are not among the visible sources; they are
modelled as constructors recording the arguments the visible dispatch
code passes them.  The `noArg` constructor records the fields the visible
`newNoArgsFunctionOperator` assigns: current step, mint, maxt, step
interval, steps batch, the optional series array, and the sample IDs. -/
inductive FuncOp where
  | scalarFn : ChildOp → FuncOp
  | relabel : ChildOp → FuncExpr → FuncOp
  | absent : ChildOp → FuncExpr → FuncOp
  | histogramQuantile : ChildOp → ChildOp → Nat → FuncOp
  | noArg : FuncExpr → Int → Int → Int → Int → Nat →
      Option (List Labels) → List Nat → FuncOp
  | instantVector : FunctionOperator → FuncOp

/-- The step interval a constructed no-argument operator will advance by,
`none` for every other variant. -/
def FuncOp.stepInterval : FuncOp → Option Int
  | .noArg _ _ _ _ step _ _ _ => some step
  | _ => none

/-- Model of `newNoArgsFunctionOperator` (operator.go lines 72–104): look
the name up in the no-argument dispatch table (unknown-function error when
absent), compute the interval as the step duration in milliseconds raised
to at least 1, and build the operator; `pi` and `time` get no series
array (`none`), every other no-argument function gets the single empty
label set.  The dispatch table itself lives in a file that is not among
the visible sources, so it is a parameter: a map from names to call
bodies, modelling the Go `map[string]noArgFunctionCall`. -/
def newNoArgsFunctionOperator (noArgFuncs : String → Option NoArgCall)
    (funcExpr : FuncExpr) (stepsBatch : Nat) (opts : QOptions) :
    Except Err FuncOp :=
  match noArgFuncs funcExpr.name with
  | none => .error (.unknownFunction funcExpr.name)
  | some _ =>
    let interval := goMilliseconds opts.stepNanos
    let interval := if interval = 0 then 1 else interval
    .ok (.noArg funcExpr opts.startMs opts.startMs opts.endMs interval
      stepsBatch
      (if funcExpr.name = "pi" ∨ funcExpr.name = "time" then none
       else some [[]])
      [0])

/-- Model of the vector-argument scan in `newInstantVectorFunctionOperator`
(operator.go lines 124–129): the index of the first argument typed as an
instant vector, 0 when there is none. -/
def findVectorIndex (ts : List VType) : Nat :=
  (ts.findIdx? (fun t => t = .vector)).getD 0

/-- Model of `newInstantVectorFunctionOperator` (operator.go lines
106–138): look the name up in the instant-vector dispatch table
(unknown-function error when absent), allocate the scalar-points buffer
(`stepsBatch` rows of `len(nextOps)-1` zeros), locate the vector argument,
and check its value type: vector or scalar passes, anything else is the
not-implemented error.  Reading `funcExpr.Args[vectorIndex]` when the
argument list is empty panics in Go, modelled as `none`.  The dispatch
table is a parameter (the Go `map[string]functionCall` lives in a file
that is not among the visible sources). -/
def newInstantVectorFunctionOperator
    (instantVectorFuncs : String → Option FunctionCall)
    (funcExpr : FuncExpr) (nextOps : List ChildOp) (stepsBatch : Nat) :
    Option (Except Err FuncOp) :=
  match instantVectorFuncs funcExpr.name with
  | none => some (.error (.unknownFunction funcExpr.name))
  | some call =>
    let scalarPoints :=
      List.replicate stepsBatch (List.replicate (nextOps.length - 1) (Fl.val 0))
    let vectorIndex := findVectorIndex funcExpr.argTypes
    match funcExpr.argTypes.get? vectorIndex with
    | none => none
    | some t =>
      if t = .vector ∨ t = .scalar then
        some (.ok (.instantVector
          { funcName := funcExpr.name
            call := call
            nextOps := nextOps
            vectorIndex := vectorIndex
            onceDone := false
            series := []
            pulls := fun _ => 0
            scalarPoints := scalarPoints }))
      else some (.error (.notImplemented funcExpr.name))

/-- Model of `NewFunctionOperator` (operator.go lines 34–70): dispatch by
name to the specialized operators (`scalar`, `label_join`/`label_replace`,
`absent`, `histogram_quantile`), then by arity: no child operators means
the no-argument family, anything else the general instant-vector family.
The special branches read `nextOps[0]` (and `nextOps[1]` for
`histogram_quantile`) and would panic on a shorter list, modelled as
`none`. -/
def NewFunctionOperator (noArgFuncs : String → Option NoArgCall)
    (instantVectorFuncs : String → Option FunctionCall)
    (funcExpr : FuncExpr) (nextOps : List ChildOp) (stepsBatch : Nat)
    (opts : QOptions) : Option (Except Err FuncOp) :=
  if funcExpr.name = "scalar" then
    match nextOps.get? 0 with
    | none => none
    | some n0 => some (.ok (.scalarFn n0))
  else if funcExpr.name = "label_join" ∨ funcExpr.name = "label_replace" then
    match nextOps.get? 0 with
    | none => none
    | some n0 => some (.ok (.relabel n0 funcExpr))
  else if funcExpr.name = "absent" then
    match nextOps.get? 0 with
    | none => none
    | some n0 => some (.ok (.absent n0 funcExpr))
  else if funcExpr.name = "histogram_quantile" then
    match nextOps.get? 0, nextOps.get? 1 with
    | some n0, some n1 => some (.ok (.histogramQuantile n0 n1 stepsBatch))
    | _, _ => none
  else if nextOps.length = 0 then
    some (newNoArgsFunctionOperator noArgFuncs funcExpr stepsBatch opts)
  else
    newInstantVectorFunctionOperator instantVectorFuncs funcExpr nextOps stepsBatch

end PromqlEngine

namespace PromqlEngine

/-- Fixture: a child operator whose `Series` always fails and whose `Next`
always returns an empty batch. -/
def boomChild : ChildOp :=
  { seriesRes := .error (.msg "boom"), nextRes := fun _ => .ok [] }

/-- Fixture: a general instant-vector function operator (`abs`, identity
call) over the single failing child `boomChild`, as freshly constructed
(`once` unfired, one pull counter at zero, one empty scalar-points row for
a batch size of 1). -/
def c6Op : FunctionOperator :=
  { funcName := "abs"
    call := fun v _ _ => some v
    nextOps := [boomChild]
    vectorIndex := 0
    onceDone := false
    series := []
    pulls := fun _ => 0
    scalarPoints := [[]] }

/-- Fixture: a child operator with two series (one carrying a metric name,
one empty) and empty batches. -/
def labelledChild : ChildOp :=
  { seriesRes := .ok [[(metricNameLabel, "up"), ("job", "api")], []]
    nextRes := fun _ => .ok [] }

/-- Fixture: a general instant-vector function operator over
`labelledChild`, freshly constructed. -/
def c2Op : FunctionOperator :=
  { funcName := "abs"
    call := fun v _ _ => some v
    nextOps := [labelledChild]
    vectorIndex := 0
    onceDone := false
    series := []
    pulls := fun _ => 0
    scalarPoints := [[]] }

/-- Characterization of the scalar-sample loop, written to the spec's
words (§4.5 step 3): over the paired (sample ID, value) list, a valid
result keeps the pair with its value replaced, an invalid result drops
the pair.  `sampleLoop` is proved equal to this below. -/
def applyCallPairs (call : FunctionCall) (row : List Fl) :
    List (Nat × Fl) → List (Nat × Fl)
  | [] => []
  | (id, s) :: rest =>
    match call s none row with
    | some r => (id, r) :: applyCallPairs call row rest
    | none => applyCallPairs call row rest

/-- Characterization of the histogram loop, written to the spec's words
(§4.5 step 3): every (histogram ID, histogram) pair is consumed; a valid
result contributes an appended scalar sample carrying the same ID.
`histLoop` is proved equal to this below. -/
def histPairs (call : FunctionCall) (row : List Fl) :
    List (Nat × Nat) → List (Nat × Fl)
  | [] => []
  | (id, h) :: rest =>
    match call (.val 0) (some h) row with
    | some r => (id, r) :: histPairs call row rest
    | none => histPairs call row rest

/-- The child positions the scalar-argument loop visits from index `i`
upward: every index below `len` except the vector argument's slot, in
order.  This is the claims' "argument order, excluding the vector
argument's slot". -/
def scalarIdxsFrom (len vIdx : Nat) : Nat → List Nat
  | i =>
    if _h : i < len then
      if i = vIdx then scalarIdxsFrom len vIdx (i + 1)
      else i :: scalarIdxsFrom len vIdx (i + 1)
    else []
termination_by i => len - i

/-- Characterization of the scalar-argument loop's buffer writes on the
success path: one `writeCol` per visited child, on consecutive columns. -/
def writeCols (batches : Nat → List StepVector) (n : Nat) :
    List Nat → Nat → List (List Fl) → List (List Fl)
  | [], _, points => points
  | j :: rest, sIdx, points =>
      writeCols batches n rest (sIdx + 1) (writeCol sIdx (batches j) n points)

/-- A single row's view of `writeCols`: write the given values into
consecutive positions starting at `sIdx`. -/
def writeRowVals : List Fl → Nat → List Fl → List Fl
  | [], _, row => row
  | v :: rest, sIdx, row => writeRowVals rest (sIdx + 1) (setIdx row sIdx v)

/-- Fixture: a step vector holding one histogram sample (ID 7, handle 42)
and no scalar samples. -/
def histOnlyBatch : StepVector := ⟨0, [], [], [7], [42]⟩

/-- Fixture: a vector child producing `histOnlyBatch` on every pull. -/
def histChild : ChildOp :=
  { seriesRes := .ok [], nextRes := fun _ => .ok [histOnlyBatch] }

/-- Fixture: a general instant-vector function operator over `histChild`
whose call always returns the valid value 5 (series already loaded). -/
def c1CexOp : FunctionOperator :=
  { funcName := "histogram_count"
    call := fun _ _ _ => some (.val 5)
    nextOps := [histChild]
    vectorIndex := 0
    onceDone := true
    series := []
    pulls := fun _ => 0
    scalarPoints := [[]] }

/-- Fixture: a call body that invalidates the value 20 and passes any
other value through unchanged. -/
def wCall : FunctionCall := fun v _ _ => if v = Fl.val 20 then none else some v

/-- Fixture: a step vector with two scalar samples (IDs 1, 2 with values
10 and 20) and one histogram sample (ID 5, handle 99). -/
def mixedBatch : StepVector := ⟨0, [1, 2], [.val 10, .val 20], [5], [99]⟩

/-- Fixture: a vector child producing `mixedBatch` on every pull. -/
def mixedChild : ChildOp :=
  { seriesRes := .ok [], nextRes := fun _ => .ok [mixedBatch] }

/-- Fixture: a scalar child producing a single sample of value 3 on every
pull. -/
def scalarChild : ChildOp :=
  { seriesRes := .ok [], nextRes := fun _ => .ok [⟨0, [0], [.val 3], [], []⟩] }

/-- Fixture: the per-child batches of `wOp`'s children for the current
pull (only position 1, the scalar child, is consulted by the theorems). -/
def wBatches : Nat → List StepVector :=
  fun j => if j = 1 then [⟨0, [0], [.val 3], [], []⟩] else []

/-- Fixture: a general instant-vector function operator with a vector
child (position 0) and one scalar child (position 1), batch size 1,
series already loaded. -/
def wOp : FunctionOperator :=
  { funcName := "clamp"
    call := wCall
    nextOps := [mixedChild, scalarChild]
    vectorIndex := 0
    onceDone := true
    series := []
    pulls := fun _ => 0
    scalarPoints := [[Fl.val 0]] }

/-- Fixture: a no-argument call body (constant zero). -/
def timeCall : NoArgCall := fun _ => Fl.val 0

/-- Fixture: a no-argument dispatch table containing only `time`. -/
def timeTable : String → Option NoArgCall :=
  fun n => if n = "time" then some timeCall else none

end PromqlEngine

namespace ExecutionPlan

/-- C5 counterexample: for the expression `sum without (a) (x)` — which
groups by exclusion (`Without = true`) — the builder passes `!e.Without`,
i.e. `false`, as the third argument of `NewAggregate`, and does not pass
`true` as the claim requires.  The first conjunct computes the exact
operator built (flag `false`); the second states that the operator the
claim describes (flag `true`) is not what is returned. -/
theorem c5_counterexample :
    newOperator 0 1000 30000
        (.aggregate "sum" true ["a"] (.vectorSelector ["x"]))
      = some (.ok (.concurrent
          (.aggregate (.concurrent (.vectorSelector ["x"] 0 1000 30000))
            "sum" false ["a"])))
    ∧ newOperator 0 1000 30000
        (.aggregate "sum" true ["a"] (.vectorSelector ["x"]))
      ≠ some (.ok (.concurrent
          (.aggregate (.concurrent (.vectorSelector ["x"] 0 1000 30000))
            "sum" true ["a"]))) := by
  constructor
  · rfl
  · intro h
    simp [newOperator] at h

/-- C5 (amended): for every aggregation expression whose inner expression
builds successfully, the builder constructs the aggregate operator with the
flag argument set to `!Without` — i.e. true exactly when the expression
groups by inclusion (a `by` clause) rather than exclusion — passing the
aggregation operator name and the grouping label list unchanged, and wraps
the result with the concurrency decorator. -/
theorem c5_aggregate_flag (mint maxt stepMs : Int) (op : String) (w : Bool)
    (g : List String) (inner : BExpr) (next : PlanOp)
    (h : newOperator mint maxt stepMs inner = some (.ok next)) :
    newOperator mint maxt stepMs (.aggregate op w g inner)
      = some (.ok (.concurrent (.aggregate next op (!w) g))) := by
  simp only [newOperator, h]

/-- C5 witness: the amended theorem applied at a concrete input. -/
theorem c5_aggregate_flag_witness :
    newOperator 0 1000 30000 (.vectorSelector ["x"])
        = some (.ok (.concurrent (.vectorSelector ["x"] 0 1000 30000)))
    ∧ newOperator 0 1000 30000
        (.aggregate "max" false ["job"] (.vectorSelector ["x"]))
      = some (.ok (.concurrent
          (.aggregate (.concurrent (.vectorSelector ["x"] 0 1000 30000))
            "max" true ["job"]))) :=
  ⟨rfl, c5_aggregate_flag 0 1000 30000 "max" false ["job"]
    (.vectorSelector ["x"]) (.concurrent (.vectorSelector ["x"] 0 1000 30000)) rfl⟩

/-- C7: the builder evaluated at the failing input `time()` — a function
call with an empty argument list, which is neither an aggregation, nor a
vector selector, nor a call whose argument is a matrix selector.  The Go
code evaluates `e.Args[0]` and panics with an index-out-of-range runtime
error (modelled as `none`) instead of returning the "unsupported
expression" error that the claim — and spec §4.1, "all errors are
returned, never panicked" — requires. -/
theorem c7_panic_on_empty_call :
    newOperator 0 1000 30000 (.call "time" []) = none
    ∧ newOperator 0 1000 30000 (.other "1 + 1")
        = some (.error "unsupported expression 1 + 1")
    ∧ newOperator 0 1000 30000 (.call "foo" [.otherArg "x"])
        = some (.error "unsupported expression foo(x)") := by
  exact ⟨rfl, rfl, rfl⟩

/-- C9 counterexample: the call `holt_winters(m[5m], 0.1, 0.3)` has three
arguments, so it is not "a function call whose sole argument is a
range-vector selector", and by the claim it must yield the
unsupported-expression error.  The code only inspects `e.Args[0]`: since
the first argument is a matrix selector it builds a matrix-selector
operator (and succeeds), contradicting the claim. -/
theorem c9_counterexample :
    newOperator 0 1000 30000
        (.call "holt_winters"
          [.matrixSelector ["m"] 300000, .otherArg "0.1", .otherArg "0.3"])
      = some (.ok (.concurrent (.matrixSelector ["m"] 0 1000 30000 300000)))
    ∧ ∀ e : String,
        newOperator 0 1000 30000
          (.call "holt_winters"
            [.matrixSelector ["m"] 300000, .otherArg "0.1", .otherArg "0.3"])
        ≠ some (.error e) := by
  refine ⟨rfl, ?_⟩
  intro e h
  exact absurd (Option.some.inj h) (by simp)

/-- C9 (amended): for every function call expression with a non-empty
argument list, if the first argument is a range-vector (matrix) selector
the builder constructs a matrix-selector operator carrying the selector's
range duration and the underlying vector selector's label matchers,
wrapped with the concurrency decorator — regardless of the remaining
arguments; if the first argument is anything else, the call is unsupported
and yields the unsupported-expression error.  (A call with an empty
argument list panics; see the C7 theorem.) -/
theorem c9_call_first_argument (mint maxt stepMs : Int) (f : String)
    (a : BArg) (args : List BArg) :
    newOperator mint maxt stepMs (.call f (a :: args))
      = match a with
        | .matrixSelector ms r =>
            some (.ok (.concurrent (.matrixSelector ms mint maxt stepMs r)))
        | .otherArg _ =>
            some (.error ("unsupported expression " ++ exprText (.call f (a :: args)))) := by
  cases a <;> rfl

end ExecutionPlan

namespace PromqlEngine

/-- After a successful first computation the once is fired: `Series` on
such an operator returns the cached array and leaves the state untouched,
whatever the children now are. -/
theorem series_of_done (o : FunctionOperator) (h : o.onceDone = true) :
    o.Series = (o, .ok o.series) := by
  simp [FunctionOperator.Series, loadSeries, h]

/-- C8: for every function call whose name is none of the five specially
dispatched names and is missing from the applicable dispatch table — the
no-argument table when there are no child operators, the instant-vector
table otherwise — `NewFunctionOperator` returns the unknown-function error
at construction time, and hence no operator (so no `Next` exists that
could surface the error later). -/
theorem c8_unknown_function (noArgFuncs : String → Option NoArgCall)
    (instantVectorFuncs : String → Option FunctionCall) (funcExpr : FuncExpr)
    (nextOps : List ChildOp) (stepsBatch : Nat) (opts : QOptions)
    (hname : funcExpr.name ∉
      ["scalar", "label_join", "label_replace", "absent", "histogram_quantile"])
    (htab0 : nextOps.length = 0 → noArgFuncs funcExpr.name = none)
    (htab1 : nextOps.length ≠ 0 → instantVectorFuncs funcExpr.name = none) :
    NewFunctionOperator noArgFuncs instantVectorFuncs funcExpr nextOps
        stepsBatch opts
      = some (.error (.unknownFunction funcExpr.name)) := by
  simp only [List.mem_cons, List.not_mem_nil, or_false, not_or] at hname
  obtain ⟨h1, h2, h3, h4, h5⟩ := hname
  unfold NewFunctionOperator
  rw [if_neg h1, if_neg (not_or.mpr ⟨h2, h3⟩), if_neg h4, if_neg h5]
  by_cases hn : nextOps.length = 0
  · rw [if_pos hn]
    simp [newNoArgsFunctionOperator, htab0 hn]
  · rw [if_neg hn]
    simp [newInstantVectorFunctionOperator, htab1 hn]

/-- C8 witness: the theorem applied to the unknown name `nope` with empty
dispatch tables, once in the no-argument position (no children) and the
hypotheses checked concretely. -/
theorem c8_unknown_function_witness :
    ("nope" ∉
      ["scalar", "label_join", "label_replace", "absent", "histogram_quantile"])
    ∧ NewFunctionOperator (fun _ => none) (fun _ => none) ⟨"nope", []⟩ [] 10
        ⟨0, 100, 1000⟩
      = some (.error (.unknownFunction "nope")) :=
  ⟨by decide,
   c8_unknown_function (fun _ => none) (fun _ => none) ⟨"nope", []⟩ [] 10
     ⟨0, 100, 1000⟩ (by decide) (fun _ => rfl) (fun h => absurd rfl h)⟩

/-- Truncating division of a non-negative duration by 10^6 is
non-negative. -/
theorem tdiv_million_nonneg (a : Int) (h : 0 ≤ a) :
    0 ≤ Int.tdiv a 1000000 := by
  obtain ⟨n, rfl⟩ := Int.eq_ofNat_of_zero_le h
  simp [Int.tdiv]
  exact Int.ofNat_nonneg _

/-- C10 counterexample: a step duration of 500000 nanoseconds (half a
millisecond) is not zero, yet the constructed no-argument operator's step
interval is 1 millisecond — not "that duration in milliseconds", which
truncates to 0.  So the claim's "with any non-zero step duration, the
interval equals that duration in milliseconds" fails. -/
theorem c10_counterexample :
    newNoArgsFunctionOperator (fun _ => some (fun _ => Fl.val 0))
        ⟨"time", []⟩ 10 ⟨0, 10000, 500000⟩
      = .ok (.noArg ⟨"time", []⟩ 0 0 10000 1 10 none [0])
    ∧ goMilliseconds 500000 = 0 ∧ (500000 : Int) ≠ 0 :=
  ⟨rfl, by decide, by decide⟩

/-- C10 (amended): for every no-argument function present in the
no-argument dispatch table, the constructed operator's step interval is 1
millisecond whenever the configured step duration truncates to zero
milliseconds (in particular for a zero duration and for any
sub-millisecond duration), and equals the duration's truncated
millisecond count otherwise; consequently for every non-negative step
duration the interval is at least 1, so successive steps always
advance. -/
theorem c10_noargs_interval (noArgFuncs : String → Option NoArgCall)
    (funcExpr : FuncExpr) (stepsBatch : Nat) (opts : QOptions) (c : NoArgCall)
    (hf : noArgFuncs funcExpr.name = some c) :
    (newNoArgsFunctionOperator noArgFuncs funcExpr stepsBatch opts).map
        FuncOp.stepInterval
      = .ok (some (if goMilliseconds opts.stepNanos = 0 then 1
                   else goMilliseconds opts.stepNanos))
    ∧ (0 ≤ opts.stepNanos →
        1 ≤ (if goMilliseconds opts.stepNanos = 0 then 1
             else goMilliseconds opts.stepNanos)) := by
  constructor
  · simp [newNoArgsFunctionOperator, hf, FuncOp.stepInterval, Except.map]
  · intro hpos
    by_cases h0 : goMilliseconds opts.stepNanos = 0
    · rw [if_pos h0]
    · rw [if_neg h0]
      have hnn : 0 ≤ goMilliseconds opts.stepNanos :=
        tdiv_million_nonneg opts.stepNanos hpos
      omega

/-- C10 witness: the amended theorem applied with a 30-second step
duration (30e9 nanoseconds, i.e. 30000 milliseconds). -/
theorem c10_noargs_interval_witness :
    timeTable "time" = some timeCall
    ∧ (newNoArgsFunctionOperator timeTable ⟨"time", []⟩ 10
          ⟨0, 10000, 30000000000⟩).map FuncOp.stepInterval
        = .ok (some 30000)
    ∧ (0 ≤ (30000000000 : Int) → 1 ≤ (30000 : Int)) :=
  ⟨rfl,
   (c10_noargs_interval timeTable ⟨"time", []⟩ 10 ⟨0, 10000, 30000000000⟩
      timeCall rfl).1,
   fun _ => by decide⟩

/-- C6: the code evaluated at the failing input.  `c6Op` is a general
instant-vector function operator whose vector child's `Series` always
fails with the error `boom`.  The first `Series` call and the first `Next`
call do fail with that error — but the second `Series` call returns
success with a nil series array, and a `Next` call made after the failed
`Series` also returns success, because the `sync.Once` has already fired
and the child's error was only stored in a local variable of `loadSeries`.
This contradicts the claim (and spec §7, child-failure propagation), which
requires every such call to keep failing with the same error. -/
theorem c6_child_failure_swallowed :
    (c6Op.Series).2 = .error (.msg "boom")
    ∧ (c6Op.Next).2 = .error (.msg "boom")
    ∧ ((c6Op.Series).1.Series).2 = .ok []
    ∧ ((c6Op.Series).1.Next).2 = .ok [] :=
  ⟨rfl, rfl, rfl, rfl⟩

/-- C2: for every freshly constructed general instant-vector function
operator whose vector child's `Series` succeeds with array `s`, the first
`Series` call returns `s` with the reserved metric-name label dropped from
every label set — except for the `vector` function, which returns the
single empty label set regardless of `s`; the computation happens at most
once: a second `Series` call returns the identical state and array, and
the result of any later call no longer depends on the children at all
(the array is not recomputed). -/
theorem c2_series_once (o : FunctionOperator) (s : List Labels)
    (hfresh : o.onceDone = false)
    (hs : (o.nextOps.getD o.vectorIndex defaultChild).seriesRes = .ok s) :
    (o.Series).2
      = .ok (if o.funcName = "vector" then [[]] else s.map DropMetricName)
    ∧ (o.Series).1.Series = o.Series
    ∧ ∀ ops2 : List ChildOp,
        (FunctionOperator.Series { (o.Series).1 with nextOps := ops2 }).2
          = (o.Series).2 := by
  have h1 : ¬ o.onceDone = true := by rw [hfresh]; exact Bool.false_ne_true
  by_cases hv : o.funcName = "vector"
  · have hload : loadSeries o
        = ({ o with onceDone := true, series := [[]] }, none) := by
      unfold loadSeries
      rw [if_neg h1, if_pos hv]
    have hser : o.Series
        = ({ o with onceDone := true, series := [[]] }, .ok [[]]) := by
      unfold FunctionOperator.Series
      rw [hload]
    refine ⟨by rw [hser, if_pos hv], ?_, ?_⟩
    · rw [hser]
      exact series_of_done _ rfl
    · intro ops2
      rw [hser]
      refine Eq.trans (congrArg Prod.snd (series_of_done _ rfl)) ?_
      rfl
  · have hload : loadSeries o
        = ({ o with onceDone := true, series := s.map DropMetricName }, none) := by
      unfold loadSeries
      rw [if_neg h1, if_neg hv, hs]
    have hser : o.Series
        = ({ o with onceDone := true, series := s.map DropMetricName },
           .ok (s.map DropMetricName)) := by
      unfold FunctionOperator.Series
      rw [hload]
    refine ⟨by rw [hser, if_neg hv], ?_, ?_⟩
    · rw [hser]
      exact series_of_done _ rfl
    · intro ops2
      rw [hser]
      refine Eq.trans (congrArg Prod.snd (series_of_done _ rfl)) ?_
      rfl

/-- C2 witness: the theorem applied to `c2Op` (function `abs`, child series
`[{__name__=up, job=api}, {}]`): the result drops only the metric name,
the second call is identical, and replacing the children afterwards does
not change the result. -/
theorem c2_series_once_witness :
    c2Op.onceDone = false
    ∧ (c2Op.nextOps.getD c2Op.vectorIndex defaultChild).seriesRes
        = .ok [[(metricNameLabel, "up"), ("job", "api")], []]
    ∧ (c2Op.Series).2 = .ok [[("job", "api")], []]
    ∧ (c2Op.Series).1.Series = c2Op.Series
    ∧ (FunctionOperator.Series { (c2Op.Series).1 with nextOps := [] }).2
        = (c2Op.Series).2 :=
  ⟨rfl, rfl,
   (c2_series_once c2Op [[(metricNameLabel, "up"), ("job", "api")], []] rfl rfl).1,
   (c2_series_once c2Op [[(metricNameLabel, "up"), ("job", "api")], []] rfl rfl).2.1,
   (c2_series_once c2Op [[(metricNameLabel, "up"), ("job", "api")], []] rfl rfl).2.2 []⟩

end PromqlEngine

namespace PromqlEngine

theorem setIdx_zero {α : Type} (a x : α) (l : List α) :
    setIdx (a :: l) 0 x = x :: l := rfl

theorem setIdx_cons_succ {α : Type} (a x : α) (l : List α) (i : Nat) :
    setIdx (a :: l) (i + 1) x = a :: setIdx l i x := rfl

theorem getD_cons_zero {α : Type} (a d : α) (l : List α) :
    (a :: l).getD 0 d = a := rfl

theorem getD_cons_succ {α : Type} (a d : α) (l : List α) (i : Nat) :
    (a :: l).getD (i + 1) d = l.getD i d := rfl

theorem setIdx_length {α : Type} (x : α) :
    ∀ (l : List α) (i : Nat), i < l.length → (setIdx l i x).length = l.length := by
  intro l
  induction l with
  | nil => intro i hi; simp at hi
  | cons a t ih =>
    intro i hi
    match i with
    | 0 => simp [setIdx_zero]
    | i + 1 =>
      rw [setIdx_cons_succ]
      simp only [List.length_cons]
      rw [ih i (Nat.lt_of_succ_lt_succ (by simpa using hi))]

theorem setIdx_getD_self {α : Type} (x d : α) :
    ∀ (l : List α) (i : Nat), i < l.length → (setIdx l i x).getD i d = x := by
  intro l
  induction l with
  | nil => intro i hi; simp at hi
  | cons a t ih =>
    intro i hi
    match i with
    | 0 => rfl
    | i + 1 =>
      rw [setIdx_cons_succ, getD_cons_succ]
      exact ih i (Nat.lt_of_succ_lt_succ (by simpa using hi))

theorem setIdx_getD_lt {α : Type} (x d : α) :
    ∀ (l : List α) (i c : Nat), c < i → i < l.length →
      (setIdx l i x).getD c d = l.getD c d := by
  intro l
  induction l with
  | nil => intro i c _ hi; simp at hi
  | cons a t ih =>
    intro i c hc hi
    match i, c with
    | 0, c => exact absurd hc (Nat.not_lt_zero c)
    | i + 1, 0 => rfl
    | i + 1, c + 1 =>
      rw [setIdx_cons_succ, getD_cons_succ, getD_cons_succ]
      exact ih i c (Nat.lt_of_succ_lt_succ hc)
        (Nat.lt_of_succ_lt_succ (by simpa using hi))

theorem take_succ_getD {α : Type} (d : α) :
    ∀ (l : List α) (i : Nat), i < l.length →
      l.take (i + 1) = l.take i ++ [l.getD i d] := by
  intro l
  induction l with
  | nil => intro i hi; simp at hi
  | cons a t ih =>
    intro i hi
    match i with
    | 0 => rfl
    | i + 1 =>
      rw [List.take_succ_cons, List.take_succ_cons, getD_cons_succ,
        ih i (Nat.lt_of_succ_lt_succ (by simpa using hi))]
      rfl

theorem drop_getD_cons {α : Type} (d : α) :
    ∀ (l : List α) (i : Nat), i < l.length →
      l.drop i = l.getD i d :: l.drop (i + 1) := by
  intro l
  induction l with
  | nil => intro i hi; simp at hi
  | cons a t ih =>
    intro i hi
    match i with
    | 0 => rfl
    | i + 1 =>
      rw [List.drop_succ_cons, getD_cons_succ,
        ih i (Nat.lt_of_succ_lt_succ (by simpa using hi))]
      rfl

theorem setIdx_take_succ {α : Type} (x : α) :
    ∀ (l : List α) (i : Nat), i < l.length →
      (setIdx l i x).take (i + 1) = l.take i ++ [x] := by
  intro l
  induction l with
  | nil => intro i hi; simp at hi
  | cons a t ih =>
    intro i hi
    match i with
    | 0 => rfl
    | i + 1 =>
      rw [setIdx_cons_succ, List.take_succ_cons, List.take_succ_cons,
        ih i (Nat.lt_of_succ_lt_succ (by simpa using hi))]
      rfl

theorem setIdx_drop_succ {α : Type} (x : α) :
    ∀ (l : List α) (i : Nat), i < l.length →
      (setIdx l i x).drop (i + 1) = l.drop (i + 1) := by
  intro l
  induction l with
  | nil => intro i hi; simp at hi
  | cons a t ih =>
    intro i hi
    match i with
    | 0 => rfl
    | i + 1 =>
      rw [setIdx_cons_succ, List.drop_succ_cons, List.drop_succ_cons,
        ih i (Nat.lt_of_succ_lt_succ (by simpa using hi))]

theorem removeIdx_zero {α : Type} (a : α) (l : List α) :
    removeIdx (a :: l) 0 = l := rfl

theorem removeIdx_cons_succ {α : Type} (a : α) (l : List α) (i : Nat) :
    removeIdx (a :: l) (i + 1) = a :: removeIdx l i := rfl

theorem removeIdx_length {α : Type} :
    ∀ (l : List α) (i : Nat), i < l.length →
      (removeIdx l i).length = l.length - 1 := by
  intro l
  induction l with
  | nil => intro i hi; simp at hi
  | cons a t ih =>
    intro i hi
    match i with
    | 0 => simp [removeIdx_zero]
    | i + 1 =>
      rw [removeIdx_cons_succ]
      simp only [List.length_cons]
      have ht : i < t.length := Nat.lt_of_succ_lt_succ (by simpa using hi)
      rw [ih i ht]
      omega

theorem removeIdx_take {α : Type} :
    ∀ (l : List α) (i : Nat), i < l.length →
      (removeIdx l i).take i = l.take i := by
  intro l
  induction l with
  | nil => intro i hi; simp at hi
  | cons a t ih =>
    intro i hi
    match i with
    | 0 => rfl
    | i + 1 =>
      rw [removeIdx_cons_succ, List.take_succ_cons, List.take_succ_cons,
        ih i (Nat.lt_of_succ_lt_succ (by simpa using hi))]

theorem removeIdx_drop {α : Type} :
    ∀ (l : List α) (i : Nat),
      (removeIdx l i).drop i = l.drop (i + 1) := by
  intro l
  induction l with
  | nil => intro i; simp [removeIdx]
  | cons a t ih =>
    intro i
    match i with
    | 0 => rfl
    | i + 1 =>
      rw [removeIdx_cons_succ, List.drop_succ_cons, List.drop_succ_cons, ih i]

theorem getD_eq_get {α : Type} (d : α) :
    ∀ (l : List α) (i : Nat) (h : i < l.length), l.getD i d = l.get ⟨i, h⟩ := by
  intro l
  induction l with
  | nil => intro i hi; simp at hi
  | cons a t ih =>
    intro i hi
    match i with
    | 0 => rfl
    | i + 1 => exact ih i (Nat.lt_of_succ_lt_succ (by simpa using hi))

theorem getD_map_fn (f : Nat → Fl) :
    ∀ (l : List Nat) (k : Nat), k < l.length →
      (l.map f).getD k .nan = f (l.getD k 0) := by
  intro l
  induction l with
  | nil => intro k hk; simp at hk
  | cons a t ih =>
    intro k hk
    match k with
    | 0 => rfl
    | k + 1 => exact ih k (Nat.lt_of_succ_lt_succ (by simpa using hk))

end PromqlEngine

namespace PromqlEngine

/-- The number of pairs the scalar-sample loop keeps equals the number of
inputs on which the call returned a valid result. -/
theorem applyCallPairs_length (call : FunctionCall) (row : List Fl) :
    ∀ ps : List (Nat × Fl),
      (applyCallPairs call row ps).length
        = ps.countP (fun p => (call p.2 none row).isSome) := by
  intro ps
  induction ps with
  | nil => simp [applyCallPairs]
  | cons p rest ih =>
    obtain ⟨id, s⟩ := p
    unfold applyCallPairs
    cases hc : call s none row with
    | none => simp [List.countP_cons, hc, ih]
    | some r => simp [List.countP_cons, hc, ih]

/-- The number of scalar samples the histogram loop appends equals the
number of histograms on which the call returned a valid result. -/
theorem histPairs_length (call : FunctionCall) (row : List Fl) :
    ∀ ps : List (Nat × Nat),
      (histPairs call row ps).length
        = ps.countP (fun p => (call (.val 0) (some p.2) row).isSome) := by
  intro ps
  induction ps with
  | nil => simp [histPairs]
  | cons p rest ih =>
    obtain ⟨id, h⟩ := p
    unfold histPairs
    cases hc : call (.val 0) (some h) row with
    | none => simp [List.countP_cons, hc, ih]
    | some r => simp [List.countP_cons, hc, ih]

/-- Unfolding equation: the scalar-sample characterization on a pair with
a valid call result. -/
theorem applyCallPairs_cons_some (call : FunctionCall) (row : List Fl)
    (id : Nat) (s : Fl) (rest : List (Nat × Fl)) (r : Fl)
    (h : call s none row = some r) :
    applyCallPairs call row ((id, s) :: rest)
      = (id, r) :: applyCallPairs call row rest := by
  simp only [applyCallPairs]
  rw [h]

/-- Unfolding equation: the scalar-sample characterization on a pair with
an invalid call result. -/
theorem applyCallPairs_cons_none (call : FunctionCall) (row : List Fl)
    (id : Nat) (s : Fl) (rest : List (Nat × Fl))
    (h : call s none row = none) :
    applyCallPairs call row ((id, s) :: rest)
      = applyCallPairs call row rest := by
  simp only [applyCallPairs]
  rw [h]

/-- Unfolding equation: the histogram characterization on a pair with a
valid call result. -/
theorem histPairs_cons_some (call : FunctionCall) (row : List Fl)
    (id h : Nat) (rest : List (Nat × Nat)) (r : Fl)
    (hc : call (.val 0) (some h) row = some r) :
    histPairs call row ((id, h) :: rest)
      = (id, r) :: histPairs call row rest := by
  simp only [histPairs]
  rw [hc]

/-- Unfolding equation: the histogram characterization on a pair with an
invalid call result. -/
theorem histPairs_cons_none (call : FunctionCall) (row : List Fl)
    (id h : Nat) (rest : List (Nat × Nat))
    (hc : call (.val 0) (some h) row = none) :
    histPairs call row ((id, h) :: rest) = histPairs call row rest := by
  simp only [histPairs]
  rw [hc]

/-- The scalar-sample loop at or past the end of the samples is the
identity (and the characterization's suffix is empty). -/
theorem sampleLoop_terminal (call : FunctionCall) (row : List Fl)
    (v : StepVector) (i : Nat) (hlen : v.SampleIDs.length = v.Samples.length)
    (hge : v.Samples.length ≤ i) :
    sampleLoop call row v i
      = { v with
          SampleIDs := v.SampleIDs.take i
            ++ (applyCallPairs call row
                  ((v.SampleIDs.drop i).zip (v.Samples.drop i))).map Prod.fst,
          Samples := v.Samples.take i
            ++ (applyCallPairs call row
                  ((v.SampleIDs.drop i).zip (v.Samples.drop i))).map Prod.snd } := by
  obtain ⟨T, ids, samples, hids, hists⟩ := v
  have hge2 : samples.length ≤ i := hge
  have hlen2 : ids.length = samples.length := hlen
  unfold sampleLoop
  dsimp only
  rw [dif_neg (by omega)]
  have hd1 : samples.drop i = [] := List.drop_eq_nil_of_le hge2
  have hd2 : ids.drop i = [] := List.drop_eq_nil_of_le (by omega)
  have ht1 : samples.take i = samples := List.take_of_length_le hge2
  have ht2 : ids.take i = ids := List.take_of_length_le (by omega)
  simp [hd1, hd2, ht1, ht2, applyCallPairs]

/-- Characterization of the scalar-sample loop: from index `i` on, the
(ID, value) pairs are exactly the valid results of the call, in order,
with invalid inputs removed; the prefix below `i` and the histogram part
are untouched. -/
theorem sampleLoop_spec (call : FunctionCall) (row : List Fl) :
    ∀ (d : Nat) (v : StepVector) (i : Nat),
      v.Samples.length - i ≤ d →
      v.SampleIDs.length = v.Samples.length →
      sampleLoop call row v i
        = { v with
            SampleIDs := v.SampleIDs.take i
              ++ (applyCallPairs call row
                    ((v.SampleIDs.drop i).zip (v.Samples.drop i))).map Prod.fst,
            Samples := v.Samples.take i
              ++ (applyCallPairs call row
                    ((v.SampleIDs.drop i).zip (v.Samples.drop i))).map Prod.snd } := by
  intro d
  induction d with
  | zero =>
    intro v i hd hlen
    exact sampleLoop_terminal call row v i hlen (by omega)
  | succ d ih =>
    intro v i hd hlen
    by_cases hlt : i < v.Samples.length
    · obtain ⟨T, ids, samples, hids, hists⟩ := v
      have hlt2 : i < samples.length := hlt
      have hlen2 : ids.length = samples.length := hlen
      have hd2 : samples.length - i ≤ d + 1 := hd
      have hlti : i < ids.length := by omega
      show sampleLoop call row ⟨T, ids, samples, hids, hists⟩ i
        = ⟨T,
           ids.take i ++ (applyCallPairs call row
             ((ids.drop i).zip (samples.drop i))).map Prod.fst,
           samples.take i ++ (applyCallPairs call row
             ((ids.drop i).zip (samples.drop i))).map Prod.snd,
           hids, hists⟩
      unfold sampleLoop
      rw [dif_pos hlt2]
      cases hcase : call (samples.get ⟨i, hlt2⟩) none row with
      | some r =>
        dsimp only
        have hslen : (setIdx samples i r).length = samples.length :=
          setIdx_length r samples i hlt2
        rw [ih ⟨T, ids, setIdx samples i r, hids, hists⟩ (i + 1)
            (by show (setIdx samples i r).length - (i + 1) ≤ d
                rw [hslen]; omega)
            (by show ids.length = (setIdx samples i r).length
                rw [hslen]; exact hlen2)]
        simp only [StepVector.mk.injEq, true_and, and_true]
        rw [setIdx_drop_succ r samples i hlt2, setIdx_take_succ r samples i hlt2,
          take_succ_getD 0 ids i hlti, drop_getD_cons 0 ids i hlti,
          drop_getD_cons Fl.nan samples i hlt2, List.zip_cons_cons,
          getD_eq_get Fl.nan samples i hlt2,
          applyCallPairs_cons_some call row _ _ _ r hcase]
        constructor
        · simp
        · simp
      | none =>
        dsimp only [StepVector.RemoveSample]
        have h1 : (removeIdx samples i).length = samples.length - 1 :=
          removeIdx_length samples i hlt2
        have h2 : (removeIdx ids i).length = ids.length - 1 :=
          removeIdx_length ids i hlti
        rw [ih ⟨T, removeIdx ids i, removeIdx samples i, hids, hists⟩ i
            (by show (removeIdx samples i).length - i ≤ d
                rw [h1]; omega)
            (by show (removeIdx ids i).length = (removeIdx samples i).length
                rw [h1, h2, hlen2])]
        simp only [StepVector.mk.injEq, true_and, and_true]
        rw [removeIdx_take ids i hlti, removeIdx_take samples i hlt2,
          removeIdx_drop ids i, removeIdx_drop samples i,
          drop_getD_cons 0 ids i hlti, drop_getD_cons Fl.nan samples i hlt2,
          List.zip_cons_cons, getD_eq_get Fl.nan samples i hlt2,
          applyCallPairs_cons_none call row _ _ _ hcase]
        exact ⟨rfl, rfl⟩
    · exact sampleLoop_terminal call row v i hlen (by omega)

end PromqlEngine

namespace PromqlEngine

/-- Characterization of the histogram loop: every histogram (and its ID)
is consumed, and the valid results are appended, in order, as scalar
samples carrying the original histogram sample IDs. -/
theorem histLoop_spec (call : FunctionCall) (row : List Fl) :
    ∀ (d : Nat) (v : StepVector),
      v.Histograms.length ≤ d →
      v.HistogramIDs.length = v.Histograms.length →
      histLoop call row v
        = { v with
            SampleIDs := v.SampleIDs
              ++ (histPairs call row (v.HistogramIDs.zip v.Histograms)).map Prod.fst,
            Samples := v.Samples
              ++ (histPairs call row (v.HistogramIDs.zip v.Histograms)).map Prod.snd,
            HistogramIDs := [],
            Histograms := [] } := by
  intro d
  induction d with
  | zero =>
    intro v hd hlen
    obtain ⟨T, S, P, hids, hists⟩ := v
    have hd2 : hists.length ≤ 0 := hd
    have hlen2 : hids.length = hists.length := hlen
    have h1 : hists = [] := List.length_eq_zero.mp (by omega)
    have h2 : hids = [] := List.length_eq_zero.mp (by omega)
    subst h1; subst h2
    unfold histLoop
    dsimp only
    rw [dif_neg (by simp)]
    simp [histPairs]
  | succ d ih =>
    intro v hd hlen
    obtain ⟨T, S, P, hids, hists⟩ := v
    have hd2 : hists.length ≤ d + 1 := hd
    have hlen2 : hids.length = hists.length := hlen
    cases hists with
    | nil =>
      have h2 : hids = [] := List.length_eq_zero.mp (by simpa using hlen2)
      subst h2
      unfold histLoop
      dsimp only
      rw [dif_neg (by simp)]
      simp [histPairs]
    | cons h rest =>
      cases hids with
      | nil => simp at hlen2
      | cons id idrest =>
        simp only [List.length_cons] at hd2 hlen2
        unfold histLoop
        dsimp only
        rw [dif_pos (by simp)]
        show (match call (Fl.val 0) (some h) row with
              | some r => histLoop call row ⟨T, S ++ [id], P ++ [r], idrest, rest⟩
              | none => histLoop call row ⟨T, S, P, idrest, rest⟩)
            = ⟨T,
               S ++ (histPairs call row ((id :: idrest).zip (h :: rest))).map Prod.fst,
               P ++ (histPairs call row ((id :: idrest).zip (h :: rest))).map Prod.snd,
               [], []⟩
        cases hcase : call (Fl.val 0) (some h) row with
        | some r =>
          dsimp only
          rw [ih ⟨T, S ++ [id], P ++ [r], idrest, rest⟩
              (show rest.length ≤ d from by omega)
              (show idrest.length = rest.length from by omega)]
          rw [List.zip_cons_cons, histPairs_cons_some call row id h _ r hcase]
          simp [List.append_assoc]
        | none =>
          dsimp only
          rw [ih ⟨T, S, P, idrest, rest⟩
              (show rest.length ≤ d from by omega)
              (show idrest.length = rest.length from by omega)]
          rw [List.zip_cons_cons, histPairs_cons_none call row id h _ hcase]

/-- One step's processing: the scalar samples of the result are exactly
the valid scalar results followed by the valid histogram-derived results,
with matching sample IDs, and no histograms remain. -/
theorem processStep_spec (call : FunctionCall) (row : List Fl)
    (v : StepVector)
    (h1 : v.SampleIDs.length = v.Samples.length)
    (h2 : v.HistogramIDs.length = v.Histograms.length) :
    processStep call row v
      = ⟨v.T,
         (applyCallPairs call row (v.SampleIDs.zip v.Samples)).map Prod.fst
           ++ (histPairs call row (v.HistogramIDs.zip v.Histograms)).map Prod.fst,
         (applyCallPairs call row (v.SampleIDs.zip v.Samples)).map Prod.snd
           ++ (histPairs call row (v.HistogramIDs.zip v.Histograms)).map Prod.snd,
         [], []⟩ := by
  obtain ⟨T, ids, samples, hids, hists⟩ := v
  have h1b : ids.length = samples.length := h1
  have h2b : hids.length = hists.length := h2
  unfold processStep
  rw [sampleLoop_spec call row samples.length ⟨T, ids, samples, hids, hists⟩ 0
      (show samples.length - 0 ≤ samples.length from by omega)
      (show ids.length = samples.length from h1b)]
  dsimp only
  rw [histLoop_spec call row hists.length]
  · dsimp only
    simp only [List.take_zero, List.drop_zero, List.nil_append]
  · exact le_refl _
  · exact h2b

/-- `processBatches` preserves the batch count. -/
theorem processBatches_length (call : FunctionCall) (points : List (List Fl)) :
    ∀ (vs : List StepVector) (b0 : Nat),
      (processBatches call points b0 vs).length = vs.length := by
  intro vs
  induction vs with
  | nil => intro b0; rfl
  | cons v rest ih =>
    intro b0
    simp only [processBatches, List.length_cons, ih]

/-- Step `b` of `processBatches` is `processStep` of input step `b` with
scalar-points row `b0 + b`. -/
theorem processBatches_getD (call : FunctionCall) (points : List (List Fl)) :
    ∀ (vs : List StepVector) (b0 b : Nat), b < vs.length →
      (processBatches call points b0 vs).getD b emptySV
        = processStep call (points.getD (b0 + b) []) (vs.getD b emptySV) := by
  intro vs
  induction vs with
  | nil => intro b0 b hb; simp at hb
  | cons v rest ih =>
    intro b0 b hb
    match b with
    | 0 => simp [processBatches]
    | b + 1 =>
      have hrec := ih (b0 + 1) b (by simpa using Nat.lt_of_succ_lt_succ (by simpa using hb))
      simp only [processBatches, getD_cons_succ]
      rw [hrec, show b0 + 1 + b = b0 + (b + 1) from by omega]

end PromqlEngine

namespace PromqlEngine

/-- `writeColAux` does not change the number of rows. -/
theorem writeColAux_length (sIdx : Nat) (svs : List StepVector) (n : Nat) :
    ∀ (points : List (List Fl)) (b0 : Nat),
      (writeColAux sIdx svs n b0 points).length = points.length := by
  intro points
  induction points with
  | nil => intro b0; rfl
  | cons row rest ih =>
    intro b0
    simp only [writeColAux, List.length_cons, ih]

/-- Row `b` of `writeColAux`: written when its absolute index is below
`n`, untouched otherwise. -/
theorem writeColAux_getD (sIdx : Nat) (svs : List StepVector) (n : Nat) :
    ∀ (points : List (List Fl)) (b0 b : Nat), b < points.length →
      (writeColAux sIdx svs n b0 points).getD b []
        = if b0 + b < n then
            setIdx (points.getD b []) sIdx (scalarVal svs (b0 + b))
          else points.getD b [] := by
  intro points
  induction points with
  | nil => intro b0 b hb; simp at hb
  | cons row rest ih =>
    intro b0 b hb
    match b with
    | 0 =>
      simp only [writeColAux, getD_cons_zero, Nat.add_zero]
    | b + 1 =>
      simp only [writeColAux, getD_cons_succ]
      rw [ih (b0 + 1) b (by simpa using Nat.lt_of_succ_lt_succ (by simpa using hb)),
        show b0 + 1 + b = b0 + (b + 1) from by omega]

/-- `writeCol` does not change the number of rows. -/
theorem writeCol_length (sIdx : Nat) (svs : List StepVector) (n : Nat)
    (points : List (List Fl)) :
    (writeCol sIdx svs n points).length = points.length :=
  writeColAux_length sIdx svs n points 0

/-- Row `b` of `writeCol`: the cell at `sIdx` is set to the extracted
scalar for step `b` when `b < n`. -/
theorem writeCol_getD (sIdx : Nat) (svs : List StepVector) (n : Nat)
    (points : List (List Fl)) (b : Nat) (hb : b < points.length) :
    (writeCol sIdx svs n points).getD b []
      = if b < n then setIdx (points.getD b []) sIdx (scalarVal svs b)
        else points.getD b [] := by
  have h := writeColAux_getD sIdx svs n points 0 b hb
  simpa using h

/-- `writeCol` preserves a uniform row length when the column is in
bounds. -/
theorem writeCol_row_length (sIdx : Nat) (svs : List StepVector) (n C : Nat) :
    ∀ (points : List (List Fl)) (b0 : Nat),
      (∀ row ∈ points, row.length = C) → sIdx < C →
      ∀ row2 ∈ writeColAux sIdx svs n b0 points, row2.length = C := by
  intro points
  induction points with
  | nil => intro b0 _ _ row2 hmem; simp [writeColAux] at hmem
  | cons row rest ih =>
    intro b0 hC hs row2 hmem
    simp only [writeColAux, List.mem_cons] at hmem
    rcases hmem with h | h
    · subst h
      split
      · rw [setIdx_length _ _ _ (by rw [hC row (by simp)]; exact hs)]
        exact hC row (by simp)
      · exact hC row (by simp)
    · exact ih (b0 + 1) (fun r hr => hC r (by simp [hr])) hs row2 h

/-- `writeCols` does not change the number of rows. -/
theorem writeCols_length (batches : Nat → List StepVector) (n : Nat) :
    ∀ (js : List Nat) (sIdx : Nat) (points : List (List Fl)),
      (writeCols batches n js sIdx points).length = points.length := by
  intro js
  induction js with
  | nil => intro sIdx points; rfl
  | cons j rest ih =>
    intro sIdx points
    simp only [writeCols, ih, writeCol_length]

/-- `writeCols` preserves a uniform row length when all columns fit. -/
theorem writeCols_row_length (batches : Nat → List StepVector) (n C : Nat) :
    ∀ (js : List Nat) (sIdx : Nat) (points : List (List Fl)),
      (∀ row ∈ points, row.length = C) → sIdx + js.length ≤ C →
      ∀ row2 ∈ writeCols batches n js sIdx points, row2.length = C := by
  intro js
  induction js with
  | nil => intro sIdx points hC _ row2 hmem; exact hC row2 hmem
  | cons j rest ih =>
    intro sIdx points hC hbound row2 hmem
    simp only [List.length_cons] at hbound
    exact ih (sIdx + 1) (writeCol sIdx (batches j) n points)
      (writeCol_row_length sIdx (batches j) n C points 0 hC (by omega))
      (by omega) row2 hmem

/-- `writeRowVals` keeps the row length when all writes are in bounds. -/
theorem writeRowVals_length :
    ∀ (vals : List Fl) (sIdx : Nat) (row : List Fl),
      sIdx + vals.length ≤ row.length →
      (writeRowVals vals sIdx row).length = row.length := by
  intro vals
  induction vals with
  | nil => intro sIdx row _; rfl
  | cons v rest ih =>
    intro sIdx row hbound
    simp only [List.length_cons] at hbound
    have hs : sIdx < row.length := by omega
    simp only [writeRowVals]
    rw [ih (sIdx + 1) (setIdx row sIdx v)
        (by rw [setIdx_length v row sIdx hs]; omega),
      setIdx_length v row sIdx hs]

/-- Cells below the first written column are untouched by
`writeRowVals`. -/
theorem writeRowVals_getD_lt :
    ∀ (vals : List Fl) (sIdx : Nat) (row : List Fl) (c : Nat) (d : Fl),
      c < sIdx → sIdx + vals.length ≤ row.length →
      (writeRowVals vals sIdx row).getD c d = row.getD c d := by
  intro vals
  induction vals with
  | nil => intro sIdx row c d _ _; rfl
  | cons v rest ih =>
    intro sIdx row c d hc hbound
    simp only [List.length_cons] at hbound
    have hs : sIdx < row.length := by omega
    simp only [writeRowVals]
    rw [ih (sIdx + 1) (setIdx row sIdx v) c d (by omega)
        (by rw [setIdx_length v row sIdx hs]; omega),
      setIdx_getD_lt v d row sIdx c hc hs]

/-- The cell at offset `k` after `writeRowVals` holds the `k`-th written
value. -/
theorem writeRowVals_getD_at :
    ∀ (vals : List Fl) (sIdx : Nat) (row : List Fl) (k : Nat),
      k < vals.length → sIdx + vals.length ≤ row.length →
      (writeRowVals vals sIdx row).getD (sIdx + k) .nan = vals.getD k .nan := by
  intro vals
  induction vals with
  | nil => intro sIdx row k hk _; simp at hk
  | cons v rest ih =>
    intro sIdx row k hk hbound
    simp only [List.length_cons] at hbound
    have hs : sIdx < row.length := by omega
    match k with
    | 0 =>
      simp only [Nat.add_zero, writeRowVals, getD_cons_zero]
      rw [writeRowVals_getD_lt rest (sIdx + 1) (setIdx row sIdx v) sIdx Fl.nan
          (by omega) (by rw [setIdx_length v row sIdx hs]; omega),
        setIdx_getD_self v Fl.nan row sIdx hs]
    | k + 1 =>
      simp only [writeRowVals, getD_cons_succ]
      rw [show sIdx + (k + 1) = (sIdx + 1) + k from by omega]
      exact ih (sIdx + 1) (setIdx row sIdx v) k
        (by simpa using Nat.lt_of_succ_lt_succ (by simpa using hk))
        (by rw [setIdx_length v row sIdx hs]; omega)

/-- Row `b` of `writeCols` equals the original row with the extracted
per-step scalars written into consecutive columns. -/
theorem writeCols_getD_row (batches : Nat → List StepVector) (n C : Nat) :
    ∀ (js : List Nat) (sIdx : Nat) (points : List (List Fl)) (b : Nat),
      (∀ row ∈ points, row.length = C) → sIdx + js.length ≤ C →
      b < points.length → b < n →
      (writeCols batches n js sIdx points).getD b []
        = writeRowVals (js.map fun j => scalarVal (batches j) b) sIdx
            (points.getD b []) := by
  intro js
  induction js with
  | nil => intro sIdx points b _ _ _ _; rfl
  | cons j rest ih =>
    intro sIdx points b hC hbound hb hn2
    simp only [List.length_cons] at hbound
    simp only [writeCols, List.map_cons, writeRowVals]
    rw [ih (sIdx + 1) (writeCol sIdx (batches j) n points) b
        (writeCol_row_length sIdx (batches j) n C points 0 hC (by omega))
        (by omega) (by rw [writeCol_length]; exact hb) hn2,
      writeCol_getD sIdx (batches j) n points b hb, if_pos hn2]

end PromqlEngine

namespace PromqlEngine

/-- Past the last child there are no scalar positions. -/
theorem scalarIdxsFrom_ge (len vIdx i : Nat) (h : len ≤ i) :
    scalarIdxsFrom len vIdx i = [] := by
  unfold scalarIdxsFrom
  rw [dif_neg (by omega)]

/-- Skipping the vector child's slot. -/
theorem scalarIdxsFrom_vIdx (len vIdx i : Nat) (hi : i < len) (hiv : i = vIdx) :
    scalarIdxsFrom len vIdx i = scalarIdxsFrom len vIdx (i + 1) := by
  conv_lhs => unfold scalarIdxsFrom
  rw [dif_pos hi, if_pos hiv]

/-- A scalar child's slot contributes its index. -/
theorem scalarIdxsFrom_cons (len vIdx i : Nat) (hi : i < len) (hiv : i ≠ vIdx) :
    scalarIdxsFrom len vIdx i = i :: scalarIdxsFrom len vIdx (i + 1) := by
  conv_lhs => unfold scalarIdxsFrom
  rw [dif_pos hi, if_neg hiv]

/-- There are `len - 1` scalar positions when the vector slot is in
range. -/
theorem scalarIdxsFrom_length (len vIdx : Nat) (hv : vIdx < len) :
    ∀ (d i : Nat), len - i ≤ d →
      (scalarIdxsFrom len vIdx i).length
        = len - i - (if i ≤ vIdx then 1 else 0) := by
  intro d
  induction d with
  | zero =>
    intro i hd
    rw [scalarIdxsFrom_ge len vIdx i (by omega)]
    simp only [List.length_nil]
    split <;> omega
  | succ d ih =>
    intro i hd
    by_cases hi : i < len
    · by_cases hiv : i = vIdx
      · rw [scalarIdxsFrom_vIdx len vIdx i hi hiv, ih (i + 1) (by omega)]
        subst hiv
        rw [if_pos (le_refl i), if_neg (by omega)]
        omega
      · rw [scalarIdxsFrom_cons len vIdx i hi hiv, List.length_cons,
          ih (i + 1) (by omega)]
        by_cases hle : i ≤ vIdx
        · rw [if_pos hle, if_pos (by omega)]
          omega
        · rw [if_neg hle, if_neg (by omega)]
          omega
    · rw [scalarIdxsFrom_ge len vIdx i (by omega)]
      simp only [List.length_nil]
      split <;> omega

/-- Success path of the scalar-argument loop: when every visited child's
pull succeeds, the loop returns no error, bumps exactly the visited
children's pull counts by one, and writes each visited child's extracted
per-step values into consecutive columns. -/
theorem scalarArgsLoop_ok (ops : List ChildOp) (vIdx n : Nat)
    (batches : Nat → List StepVector) :
    ∀ (d i sIdx : Nat) (pulls : Nat → Nat) (points : List (List Fl)),
      ops.length - i ≤ d →
      (∀ j, i ≤ j → j < ops.length → j ≠ vIdx →
          (ops.getD j defaultChild).nextRes (pulls j) = .ok (batches j)) →
      ∃ pulls2,
        scalarArgsLoop ops vIdx n i sIdx pulls points
          = (pulls2,
             writeCols batches n (scalarIdxsFrom ops.length vIdx i) sIdx points,
             none)
        ∧ ∀ j, pulls2 j
            = if i ≤ j ∧ j < ops.length ∧ j ≠ vIdx then pulls j + 1
              else pulls j := by
  intro d
  induction d with
  | zero =>
    intro i sIdx pulls points hd hok
    refine ⟨pulls, ?_, ?_⟩
    · unfold scalarArgsLoop
      rw [dif_neg (by omega), scalarIdxsFrom_ge ops.length vIdx i (by omega)]
      rfl
    · intro j
      rw [if_neg (by omega)]
  | succ d ih =>
    intro i sIdx pulls points hd hok
    by_cases hi : i < ops.length
    · by_cases hiv : i = vIdx
      · obtain ⟨P, heq, hP⟩ := ih (i + 1) sIdx pulls points (by omega)
          (fun j h1 h2 h3 => hok j (by omega) h2 h3)
        refine ⟨P, ?_, ?_⟩
        · unfold scalarArgsLoop
          rw [dif_pos hi, if_pos hiv, heq,
            scalarIdxsFrom_vIdx ops.length vIdx i hi hiv]
        · intro j
          rw [hP j]
          subst hiv
          have hiff : (i + 1 ≤ j ∧ j < ops.length ∧ j ≠ i)
              ↔ (i ≤ j ∧ j < ops.length ∧ j ≠ i) := by omega
          rw [if_congr hiff rfl rfl]
      · set pulls2 := fun k => if k = i then pulls k + 1 else pulls k with hpulls2
        have hp2 : ∀ j, pulls2 j = if j = i then pulls j + 1 else pulls j := by
          intro j
          rw [hpulls2]
        have hpc : pullChild ops pulls i = (pulls2, .ok (batches i)) := by
          unfold pullChild
          rw [hok i (le_refl i) hi hiv, ← hpulls2]
        have hok2 : ∀ j, i + 1 ≤ j → j < ops.length → j ≠ vIdx →
            (ops.getD j defaultChild).nextRes (pulls2 j) = .ok (batches j) := by
          intro j h1 h2 h3
          rw [hp2 j, if_neg (by omega)]
          exact hok j (by omega) h2 h3
        obtain ⟨P, heq, hP⟩ := ih (i + 1) (sIdx + 1) pulls2
          (writeCol sIdx (batches i) n points) (by omega) hok2
        refine ⟨P, ?_, ?_⟩
        · unfold scalarArgsLoop
          rw [dif_pos hi, if_neg hiv, hpc]
          dsimp only
          rw [heq, scalarIdxsFrom_cons ops.length vIdx i hi hiv]
          rfl
        · intro j
          rw [hP j, hp2 j]
          by_cases hji : j = i
          · subst hji
            rw [if_neg (by omega), if_pos rfl, if_pos ⟨le_refl j, hi, hiv⟩]
          · rw [if_neg hji]
            have hiff : (i + 1 ≤ j ∧ j < ops.length ∧ j ≠ vIdx)
                ↔ (i ≤ j ∧ j < ops.length ∧ j ≠ vIdx) := by omega
            rw [if_congr hiff rfl rfl]
    · refine ⟨pulls, ?_, ?_⟩
      · unfold scalarArgsLoop
        rw [dif_neg (by omega), scalarIdxsFrom_ge ops.length vIdx i (by omega)]
        rfl
      · intro j
        rw [if_neg (by omega)]

/-- `loadSeries` only touches the once flag and the series cache. -/
theorem loadSeries_preserve (o : FunctionOperator) :
    (loadSeries o).1.call = o.call
    ∧ (loadSeries o).1.nextOps = o.nextOps
    ∧ (loadSeries o).1.vectorIndex = o.vectorIndex
    ∧ (loadSeries o).1.pulls = o.pulls
    ∧ (loadSeries o).1.scalarPoints = o.scalarPoints := by
  unfold loadSeries
  split
  · exact ⟨rfl, rfl, rfl, rfl, rfl⟩
  · split
    · exact ⟨rfl, rfl, rfl, rfl, rfl⟩
    · split <;> exact ⟨rfl, rfl, rfl, rfl, rfl⟩

end PromqlEngine

namespace PromqlEngine

/-- Success path of `Next`: with the series cache loadable without error,
the vector child producing a non-empty batch, and every scalar child's
pull succeeding, `Next` emits the processed batches, stores the written
scalar-points buffer, and pulls every child exactly once. -/
theorem next_ok_parts (o : FunctionOperator) (vectors : List StepVector)
    (batches : Nat → List StepVector)
    (hload : (loadSeries o).2 = none)
    (hvec : (o.nextOps.getD o.vectorIndex defaultChild).nextRes
        (o.pulls o.vectorIndex) = .ok vectors)
    (hne : vectors ≠ [])
    (hok : ∀ j, j < o.nextOps.length → j ≠ o.vectorIndex →
        (o.nextOps.getD j defaultChild).nextRes (o.pulls j) = .ok (batches j)) :
    (o.Next).2 = .ok (processBatches o.call
        (writeCols batches vectors.length
          (scalarIdxsFrom o.nextOps.length o.vectorIndex 0) 0 o.scalarPoints)
        0 vectors)
    ∧ (o.Next).1.scalarPoints
        = writeCols batches vectors.length
            (scalarIdxsFrom o.nextOps.length o.vectorIndex 0) 0 o.scalarPoints
    ∧ (∀ j, j < o.nextOps.length → j ≠ o.vectorIndex →
        (o.Next).1.pulls j = o.pulls j + 1)
    ∧ (o.Next).1.pulls o.vectorIndex = o.pulls o.vectorIndex + 1 := by
  obtain ⟨hc, hn, hv, hp, hs⟩ := loadSeries_preserve o
  set o1 := (loadSeries o).1 with ho1
  have hl : loadSeries o = (o1, none) := by
    rw [← hload]
  set pulls1 := fun k => if k = o.vectorIndex then o.pulls k + 1 else o.pulls k
    with hpulls1
  have hp1 : ∀ j, pulls1 j = if j = o.vectorIndex then o.pulls j + 1
      else o.pulls j := by
    intro j
    rw [hpulls1]
  have hpc : pullChild o1.nextOps o1.pulls o1.vectorIndex
      = (pulls1, .ok vectors) := by
    unfold pullChild
    rw [hn, hv, hp, hvec, hpulls1]
  have hok1 : ∀ j, 0 ≤ j → j < o1.nextOps.length → j ≠ o1.vectorIndex →
      (o1.nextOps.getD j defaultChild).nextRes (pulls1 j) = .ok (batches j) := by
    intro j _ h2 h3
    rw [hn] at h2 ⊢
    rw [hv] at h3
    rw [hp1 j, if_neg h3]
    exact hok j h2 h3
  obtain ⟨P, hloop, hPj⟩ := scalarArgsLoop_ok o1.nextOps o1.vectorIndex
    vectors.length batches o1.nextOps.length 0 0 pulls1 o1.scalarPoints
    (by omega) hok1
  have hlen0 : ¬ vectors.length = 0 := by
    intro h0
    exact hne (List.length_eq_zero.mp h0)
  have hnexteq : o.Next = ({ o1 with pulls := P, scalarPoints := writeCols batches vectors.length (scalarIdxsFrom o1.nextOps.length o1.vectorIndex 0) 0 o1.scalarPoints }, .ok (processBatches o1.call (writeCols batches vectors.length (scalarIdxsFrom o1.nextOps.length o1.vectorIndex 0) 0 o1.scalarPoints) 0 vectors)) := by
    unfold FunctionOperator.Next
    rw [hl]
    dsimp only
    rw [hpc]
    dsimp only
    rw [if_neg hlen0, hloop]
  rw [hnexteq]
  dsimp only
  rw [hn, hv, hs, hc]
  refine ⟨rfl, rfl, ?_, ?_⟩
  · intro j h2 h3
    rw [hPj j, if_pos ⟨Nat.zero_le j, by rw [hn]; exact h2, by rw [hv]; exact h3⟩,
      hp1 j, if_neg h3]
  · rw [hPj o.vectorIndex, hv, if_neg (by intro hcon; exact hcon.2.2 rfl),
      hp1 o.vectorIndex, if_pos rfl]

end PromqlEngine

namespace PromqlEngine

/-- A `getD` at an in-range index is a member of the list. -/
theorem getD_mem {α : Type} (d : α) (l : List α) (k : Nat) (hk : k < l.length) :
    l.getD k d ∈ l := by
  rw [getD_eq_get d l k hk]
  exact List.get_mem l k hk

/-- Every scalar position is an in-range child index other than the
vector slot. -/
theorem scalarIdxsFrom_mem (len vIdx : Nat) :
    ∀ (d i j : Nat), len - i ≤ d → j ∈ scalarIdxsFrom len vIdx i →
      i ≤ j ∧ j < len ∧ j ≠ vIdx := by
  intro d
  induction d with
  | zero =>
    intro i j hd hmem
    rw [scalarIdxsFrom_ge len vIdx i (by omega)] at hmem
    simp at hmem
  | succ d ih =>
    intro i j hd hmem
    by_cases hi : i < len
    · by_cases hiv : i = vIdx
      · rw [scalarIdxsFrom_vIdx len vIdx i hi hiv] at hmem
        have := ih (i + 1) j (by omega) hmem
        exact ⟨by omega, this.2⟩
      · rw [scalarIdxsFrom_cons len vIdx i hi hiv] at hmem
        rcases List.mem_cons.mp hmem with h | h
        · subst h
          exact ⟨le_refl j, hi, hiv⟩
        · have := ih (i + 1) j (by omega) h
          exact ⟨by omega, this.2⟩
    · rw [scalarIdxsFrom_ge len vIdx i (by omega)] at hmem
      simp at hmem

end PromqlEngine

namespace PromqlEngine

/-- C1 (amended): for every `Next` call on the general instant-vector
function operator that succeeds with a non-empty vector batch, and for
every step of the batch: each scalar sample with a valid function result
has its value replaced in place, each one with an invalid result is
removed by in-place compaction (the output scalar samples are exactly the
valid results, in input order, followed by the appended histogram-derived
results), and consequently the emitted scalar-sample count for the step
equals the number of input scalar samples whose function result was valid
plus the number of input histogram samples whose function result was
valid; no invalid result appears in the output. -/
theorem c1_sample_filtering (o : FunctionOperator) (vectors : List StepVector)
    (batches : Nat → List StepVector)
    (hload : (loadSeries o).2 = none)
    (hvec : (o.nextOps.getD o.vectorIndex defaultChild).nextRes
        (o.pulls o.vectorIndex) = .ok vectors)
    (hne : vectors ≠ [])
    (hok : ∀ j, j < o.nextOps.length → j ≠ o.vectorIndex →
        (o.nextOps.getD j defaultChild).nextRes (o.pulls j) = .ok (batches j))
    (halign : ∀ v ∈ vectors, v.SampleIDs.length = v.Samples.length
        ∧ v.HistogramIDs.length = v.Histograms.length) :
    ∃ out, (o.Next).2 = .ok out
    ∧ out.length = vectors.length
    ∧ ∀ b, b < vectors.length →
        (out.getD b emptySV).Samples
          = (applyCallPairs o.call ((o.Next).1.scalarPoints.getD b [])
              ((vectors.getD b emptySV).SampleIDs.zip
                (vectors.getD b emptySV).Samples)).map Prod.snd
            ++ (histPairs o.call ((o.Next).1.scalarPoints.getD b [])
              ((vectors.getD b emptySV).HistogramIDs.zip
                (vectors.getD b emptySV).Histograms)).map Prod.snd
        ∧ (out.getD b emptySV).Samples.length
          = ((vectors.getD b emptySV).SampleIDs.zip
              (vectors.getD b emptySV).Samples).countP
              (fun p => (o.call p.2 none
                ((o.Next).1.scalarPoints.getD b [])).isSome)
            + ((vectors.getD b emptySV).HistogramIDs.zip
                (vectors.getD b emptySV).Histograms).countP
              (fun p => (o.call (.val 0) (some p.2)
                ((o.Next).1.scalarPoints.getD b [])).isSome) := by
  obtain ⟨h1, h2, h3, h4⟩ := next_ok_parts o vectors batches hload hvec hne hok
  refine ⟨_, h1, processBatches_length o.call _ vectors 0, ?_⟩
  intro b hb
  have hmem : vectors.getD b emptySV ∈ vectors := getD_mem emptySV vectors b hb
  obtain ⟨ha1, ha2⟩ := halign (vectors.getD b emptySV) hmem
  have hstep := processBatches_getD o.call
    (writeCols batches vectors.length
      (scalarIdxsFrom o.nextOps.length o.vectorIndex 0) 0 o.scalarPoints)
    vectors 0 b hb
  simp only [Nat.zero_add] at hstep
  rw [h2, hstep,
    processStep_spec o.call _ (vectors.getD b emptySV) ha1 ha2]
  constructor
  · rfl
  · simp [applyCallPairs_length, histPairs_length]

/-- C3: for every `Next` call on the general instant-vector function
operator that succeeds with a non-empty vector batch, and for every step:
every histogram sample of the input batch is removed (no histograms
remain in the output), and for each histogram whose function result is
valid a new scalar sample carrying the same sample ID is appended after
the surviving scalar samples. -/
theorem c3_histograms_consumed (o : FunctionOperator)
    (vectors : List StepVector) (batches : Nat → List StepVector)
    (hload : (loadSeries o).2 = none)
    (hvec : (o.nextOps.getD o.vectorIndex defaultChild).nextRes
        (o.pulls o.vectorIndex) = .ok vectors)
    (hne : vectors ≠ [])
    (hok : ∀ j, j < o.nextOps.length → j ≠ o.vectorIndex →
        (o.nextOps.getD j defaultChild).nextRes (o.pulls j) = .ok (batches j))
    (halign : ∀ v ∈ vectors, v.SampleIDs.length = v.Samples.length
        ∧ v.HistogramIDs.length = v.Histograms.length) :
    ∃ out, (o.Next).2 = .ok out
    ∧ out.length = vectors.length
    ∧ ∀ b, b < vectors.length →
        (out.getD b emptySV).Histograms = []
        ∧ (out.getD b emptySV).HistogramIDs = []
        ∧ (out.getD b emptySV).SampleIDs
          = (applyCallPairs o.call ((o.Next).1.scalarPoints.getD b [])
              ((vectors.getD b emptySV).SampleIDs.zip
                (vectors.getD b emptySV).Samples)).map Prod.fst
            ++ (histPairs o.call ((o.Next).1.scalarPoints.getD b [])
              ((vectors.getD b emptySV).HistogramIDs.zip
                (vectors.getD b emptySV).Histograms)).map Prod.fst := by
  obtain ⟨h1, h2, h3, h4⟩ := next_ok_parts o vectors batches hload hvec hne hok
  refine ⟨_, h1, processBatches_length o.call _ vectors 0, ?_⟩
  intro b hb
  have hmem : vectors.getD b emptySV ∈ vectors := getD_mem emptySV vectors b hb
  obtain ⟨ha1, ha2⟩ := halign (vectors.getD b emptySV) hmem
  have hstep := processBatches_getD o.call
    (writeCols batches vectors.length
      (scalarIdxsFrom o.nextOps.length o.vectorIndex 0) 0 o.scalarPoints)
    vectors 0 b hb
  simp only [Nat.zero_add] at hstep
  rw [h2, hstep,
    processStep_spec o.call _ (vectors.getD b emptySV) ha1 ha2]
  exact ⟨rfl, rfl, rfl⟩

/-- C4: for every `Next` call on the general instant-vector function
operator that succeeds with a non-empty vector batch: each scalar
argument operator is pulled exactly once, and for every step of the batch
the scalar input stored (and passed to the function) at each scalar
argument's position — positions aligned by argument order, excluding the
vector argument's slot — is that argument's single sample value for the
step, or NaN when that argument produced no sample for that step. -/
theorem c4_scalar_arguments (o : FunctionOperator)
    (vectors : List StepVector) (batches : Nat → List StepVector)
    (hload : (loadSeries o).2 = none)
    (hvec : (o.nextOps.getD o.vectorIndex defaultChild).nextRes
        (o.pulls o.vectorIndex) = .ok vectors)
    (hne : vectors ≠ [])
    (hok : ∀ j, j < o.nextOps.length → j ≠ o.vectorIndex →
        (o.nextOps.getD j defaultChild).nextRes (o.pulls j) = .ok (batches j))
    (hvi : o.vectorIndex < o.nextOps.length)
    (hrows : vectors.length ≤ o.scalarPoints.length)
    (hcols : ∀ row ∈ o.scalarPoints, row.length + 1 = o.nextOps.length)
    (hsv : ∀ j, j < o.nextOps.length → j ≠ o.vectorIndex →
        batches j = [] ∨ (batches j).length = vectors.length) :
    (∀ j, j < o.nextOps.length → j ≠ o.vectorIndex →
        (o.Next).1.pulls j = o.pulls j + 1)
    ∧ ∀ b, b < vectors.length →
        ∀ k, k < (scalarIdxsFrom o.nextOps.length o.vectorIndex 0).length →
          ((o.Next).1.scalarPoints.getD b []).getD k .nan
            = if ((batches ((scalarIdxsFrom o.nextOps.length o.vectorIndex 0).getD k 0)).getD
                    b emptySV).Samples = []
              then Fl.nan
              else ((batches ((scalarIdxsFrom o.nextOps.length o.vectorIndex 0).getD
                      k 0)).getD b emptySV).Samples.headD Fl.nan := by
  obtain ⟨h1, h2, h3, h4⟩ := next_ok_parts o vectors batches hload hvec hne hok
  refine ⟨h3, ?_⟩
  intro b hb k hk
  have hC : ∀ row ∈ o.scalarPoints, row.length = o.nextOps.length - 1 := by
    intro row hr
    have := hcols row hr
    omega
  have hjs0 := scalarIdxsFrom_length o.nextOps.length o.vectorIndex hvi
    o.nextOps.length 0 (by omega)
  rw [if_pos (Nat.zero_le o.vectorIndex)] at hjs0
  have hjslen : (scalarIdxsFrom o.nextOps.length o.vectorIndex 0).length
      = o.nextOps.length - 1 := by omega
  have hrowmem : o.scalarPoints.getD b [] ∈ o.scalarPoints :=
    getD_mem [] o.scalarPoints b (by omega)
  rw [h2, writeCols_getD_row batches vectors.length (o.nextOps.length - 1)
      (scalarIdxsFrom o.nextOps.length o.vectorIndex 0) 0 o.scalarPoints b hC
      (by omega) (by omega) hb]
  have hcell := writeRowVals_getD_at
    ((scalarIdxsFrom o.nextOps.length o.vectorIndex 0).map
      (fun j => scalarVal (batches j) b))
    0 (o.scalarPoints.getD b []) k
    (by rw [List.length_map]; omega)
    (by rw [List.length_map]
        have := hC (o.scalarPoints.getD b []) hrowmem
        omega)
  simp only [Nat.zero_add] at hcell
  rw [hcell, getD_map_fn (fun j => scalarVal (batches j) b)
    (scalarIdxsFrom o.nextOps.length o.vectorIndex 0) k (by omega)]
  have hjkmem : (scalarIdxsFrom o.nextOps.length o.vectorIndex 0).getD k 0
      ∈ scalarIdxsFrom o.nextOps.length o.vectorIndex 0 :=
    getD_mem 0 _ k (by omega)
  have hjkb := scalarIdxsFrom_mem o.nextOps.length o.vectorIndex
    o.nextOps.length 0 _ (by omega) hjkmem
  rcases hsv _ hjkb.2.1 hjkb.2.2 with hemp | hlen2
  · rw [hemp]
    simp [scalarVal, emptySV]
  · have hpos : 0 < vectors.length := List.length_pos.mpr hne
    cases hsamp : ((batches ((scalarIdxsFrom o.nextOps.length o.vectorIndex
        0).getD k 0)).getD b emptySV).Samples with
    | nil =>
      simp only [scalarVal]
      rw [if_neg (by rw [hsamp]; simp)]
      simp
    | cons a t =>
      simp only [scalarVal]
      rw [if_pos ⟨by omega, by rw [hsamp]; simp⟩, hsamp]
      simp

end PromqlEngine

namespace PromqlEngine

/-- The scalar positions of a two-child operator with the vector child in
slot 0: just slot 1. -/
theorem scalarIdxs_two : scalarIdxsFrom 2 0 0 = [1] := by
  rw [scalarIdxsFrom_vIdx 2 0 0 (by omega) rfl,
    scalarIdxsFrom_cons 2 0 1 (by omega) (by omega),
    scalarIdxsFrom_ge 2 0 2 (by omega)]

/-- All of `wOp`'s children answer the current pull successfully with the
batches recorded in `wBatches`. -/
theorem wOp_children_ok : ∀ j, j < wOp.nextOps.length → j ≠ wOp.vectorIndex →
    (wOp.nextOps.getD j defaultChild).nextRes (wOp.pulls j)
      = .ok (wBatches j) := by
  intro j hj hjv
  have hj2 : j < 2 := hj
  interval_cases j
  · exact absurd rfl hjv
  · rfl

/-- C1 counterexample: `c1CexOp`'s vector child produces a batch with no
scalar samples and one histogram sample, and the function body always
returns a valid result.  The emitted step then carries one scalar sample
(the appended histogram result, ID 7, value 5), so the emitted
scalar-sample count (1) differs from the number of input scalar samples
whose function result was valid (0, there are none), contradicting the
claim's count equation. -/
theorem c1_counterexample :
    (c1CexOp.Next).2 = .ok [⟨0, [7], [Fl.val 5], [], []⟩]
    ∧ histOnlyBatch.Samples.length = 0
    ∧ (([⟨0, [7], [Fl.val 5], [], []⟩] : List StepVector).getD 0
        emptySV).Samples.length = 1 := by
  refine ⟨?_, rfl, rfl⟩
  obtain ⟨h1, h2, h3, h4⟩ := next_ok_parts c1CexOp [histOnlyBatch]
    (fun _ => []) rfl rfl (by simp)
    (by intro j hj hjv
        have hj2 : j < 1 := hj
        interval_cases j
        exact absurd rfl hjv)
  rw [h1]
  have hfin : processBatches c1CexOp.call
      (writeCols (fun _ => []) ([histOnlyBatch] : List StepVector).length
        (scalarIdxsFrom c1CexOp.nextOps.length c1CexOp.vectorIndex 0) 0
        c1CexOp.scalarPoints) 0 [histOnlyBatch]
      = [⟨0, [7], [Fl.val 5], [], []⟩] := by
    show processBatches c1CexOp.call
      (writeCols (fun _ => []) 1 (scalarIdxsFrom 1 0 0) 0 [[]]) 0
      [histOnlyBatch] = [⟨0, [7], [Fl.val 5], [], []⟩]
    rw [scalarIdxsFrom_vIdx 1 0 0 (by omega) rfl,
      scalarIdxsFrom_ge 1 0 1 (by omega)]
    show [processStep c1CexOp.call [] histOnlyBatch]
      = [⟨0, [7], [Fl.val 5], [], []⟩]
    rw [processStep_spec c1CexOp.call [] histOnlyBatch rfl rfl]
    rfl
  rw [hfin]

/-- C1 witness: the amended theorem applied to `wOp` over the mixed batch
(two scalar samples, one histogram) with one scalar argument child. -/
theorem c1_sample_filtering_witness :
    (loadSeries wOp).2 = none
    ∧ (wOp.nextOps.getD wOp.vectorIndex defaultChild).nextRes
        (wOp.pulls wOp.vectorIndex) = .ok [mixedBatch]
    ∧ ([mixedBatch] : List StepVector) ≠ []
    ∧ ∃ out, (wOp.Next).2 = .ok out ∧ out.length = 1
      ∧ (out.getD 0 emptySV).Samples
          = (applyCallPairs wOp.call ((wOp.Next).1.scalarPoints.getD 0 [])
              (mixedBatch.SampleIDs.zip mixedBatch.Samples)).map Prod.snd
            ++ (histPairs wOp.call ((wOp.Next).1.scalarPoints.getD 0 [])
              (mixedBatch.HistogramIDs.zip mixedBatch.Histograms)).map Prod.snd
      ∧ (out.getD 0 emptySV).Samples.length
          = (mixedBatch.SampleIDs.zip mixedBatch.Samples).countP
              (fun p => (wOp.call p.2 none
                ((wOp.Next).1.scalarPoints.getD 0 [])).isSome)
            + (mixedBatch.HistogramIDs.zip mixedBatch.Histograms).countP
              (fun p => (wOp.call (.val 0) (some p.2)
                ((wOp.Next).1.scalarPoints.getD 0 [])).isSome) := by
  refine ⟨rfl, rfl, by simp, ?_⟩
  obtain ⟨out, h1, h2, h3⟩ := c1_sample_filtering wOp [mixedBatch] wBatches
    rfl rfl (by simp) wOp_children_ok (by decide)
  exact ⟨out, h1, h2, (h3 0 (by simp)).1, (h3 0 (by simp)).2⟩

/-- C3 witness: the theorem applied to `wOp` over the mixed batch; the
emitted step carries no histograms and its sample IDs are the surviving
scalar IDs followed by the histogram's ID. -/
theorem c3_histograms_consumed_witness :
    (loadSeries wOp).2 = none
    ∧ (wOp.nextOps.getD wOp.vectorIndex defaultChild).nextRes
        (wOp.pulls wOp.vectorIndex) = .ok [mixedBatch]
    ∧ ([mixedBatch] : List StepVector) ≠ []
    ∧ ∃ out, (wOp.Next).2 = .ok out ∧ out.length = 1
      ∧ (out.getD 0 emptySV).Histograms = []
      ∧ (out.getD 0 emptySV).HistogramIDs = []
      ∧ (out.getD 0 emptySV).SampleIDs
          = (applyCallPairs wOp.call ((wOp.Next).1.scalarPoints.getD 0 [])
              (mixedBatch.SampleIDs.zip mixedBatch.Samples)).map Prod.fst
            ++ (histPairs wOp.call ((wOp.Next).1.scalarPoints.getD 0 [])
              (mixedBatch.HistogramIDs.zip mixedBatch.Histograms)).map Prod.fst := by
  refine ⟨rfl, rfl, by simp, ?_⟩
  obtain ⟨out, h1, h2, h3⟩ := c3_histograms_consumed wOp [mixedBatch] wBatches
    rfl rfl (by simp) wOp_children_ok (by decide)
  exact ⟨out, h1, h2, (h3 0 (by simp)).1, (h3 0 (by simp)).2.1,
    (h3 0 (by simp)).2.2⟩

/-- C4 witness: the theorem applied to `wOp`: the scalar child (slot 1)
is pulled exactly once and the per-step scalar input at position 0 is its
single sample value. -/
theorem c4_scalar_arguments_witness :
    (loadSeries wOp).2 = none
    ∧ wOp.vectorIndex < wOp.nextOps.length
    ∧ (∀ row ∈ wOp.scalarPoints, row.length + 1 = wOp.nextOps.length)
    ∧ (wOp.Next).1.pulls 1 = wOp.pulls 1 + 1
    ∧ ((wOp.Next).1.scalarPoints.getD 0 []).getD 0 .nan
        = if ((wBatches ((scalarIdxsFrom wOp.nextOps.length wOp.vectorIndex
                0).getD 0 0)).getD 0 emptySV).Samples = []
          then Fl.nan
          else ((wBatches ((scalarIdxsFrom wOp.nextOps.length wOp.vectorIndex
                  0).getD 0 0)).getD 0 emptySV).Samples.headD Fl.nan := by
  refine ⟨rfl, by decide, by decide, ?_, ?_⟩
  · obtain ⟨hp, _⟩ := c4_scalar_arguments wOp [mixedBatch] wBatches
      rfl rfl (by simp) wOp_children_ok (by decide) (by decide) (by decide)
      (by decide)
    exact hp 1 (by decide) (by decide)
  · obtain ⟨_, hcell⟩ := c4_scalar_arguments wOp [mixedBatch] wBatches
      rfl rfl (by simp) wOp_children_ok (by decide) (by decide) (by decide)
      (by decide)
    have hjs : scalarIdxsFrom wOp.nextOps.length wOp.vectorIndex 0 = [1] :=
      scalarIdxs_two
    exact hcell 0 (by simp) 0 (by rw [hjs]; decide)

end PromqlEngine
